/-
Verification of the fundsp sequencer and resynthesizer cores.

The development shallowly embeds the two source files
`src/sequencer.rs` and `src/resynth.rs` into Lean.  Floating point
samples and times are modelled as real numbers (exact arithmetic), so
tolerance clauses of the specification hold with error zero.  The
sequencer is modelled in its backend-less configuration (the `front`
field is `None`), which is the configuration every claim below is
about.  Helper functions from the `math` module of the repository
(`sine_ease`, `smooth5`, `delerp`, `round`) are not part of the given
sources and are modelled from the specification text.
-/
import Mathlib

set_option maxHeartbeats 1000000

namespace Fundsp

/-! ## Math helpers (modelled from the spec) -/

/-- Modelled from the spec: the `sine_ease` helper of the missing `math`
module, the `Power` fade curve, `sin((pi/2) * x)`. -/
noncomputable def sine_ease (x : ℝ) : ℝ := Real.sin (Real.pi / 2 * x)

/-- Modelled from the spec: the `smooth5` helper of the missing `math`
module, the fifth order smoothstep `x^3 * (6*x^2 - 15*x + 10)`. -/
def smooth5 (x : ℝ) : ℝ := x ^ 3 * (6 * x ^ 2 - 15 * x + 10)

/-- Modelled from the spec: the `delerp` helper of the missing `math`
module.  It recovers the interpolation parameter of `x` between `a`
and `b`, `(x - a) / (b - a)`. -/
noncomputable def delerp (a b x : ℝ) : ℝ := (x - a) / (b - a)

/-- Modelled from the spec: the `round` helper of the missing `math`
module.  The spec says rounding from time to sample index is
half-to-even. -/
noncomputable def round48 (x : ℝ) : ℤ :=
  if x - ⌊x⌋ < 1 / 2 then ⌊x⌋
  else if 1 / 2 < x - ⌊x⌋ then ⌊x⌋ + 1
  else if Even ⌊x⌋ then ⌊x⌋ else ⌊x⌋ + 1

theorem round48_of_le_half {x : ℝ} (h0 : 0 ≤ x) (h1 : x ≤ 1 / 2) :
    round48 x = 0 := by
  have hfl : ⌊x⌋ = 0 := by
    rw [Int.floor_eq_zero_iff]
    constructor
    · exact h0
    · linarith
  unfold round48
  rw [hfl]
  rcases lt_or_eq_of_le h1 with h | h
  · rw [if_pos]
    push_cast
    linarith
  · rw [if_neg, if_neg, if_pos]
    · exact even_zero
    · push_cast
      linarith
    · push_cast
      linarith

theorem round48_of_half_lt {x : ℝ} (h0 : 1 / 2 < x) (h1 : x < 1) :
    round48 x = 1 := by
  have hfl : ⌊x⌋ = 0 := by
    rw [Int.floor_eq_zero_iff]
    constructor
    · linarith
    · exact h1
  unfold round48
  rw [hfl]
  rw [if_neg (by push_cast; linarith), if_pos (by push_cast; linarith)]
  norm_num

/-! ## Fade curves (`Fade` and `Fade::at` from `src/sequencer.rs`) -/

/-- Fade curves: equal power fade or smooth polynomial fade. -/
inductive Fade where
  | Power : Fade
  | Smooth : Fade
deriving DecidableEq

/-- Evaluate fade curve at `x` (mirrors `Fade::at`). -/
noncomputable def Fade.at (f : Fade) (x : ℝ) : ℝ :=
  match f with
  | Fade.Power => sine_ease x
  | Fade.Smooth => smooth5 x

theorem fade_at_power (x : ℝ) : Fade.at Fade.Power x = sine_ease x := rfl

theorem fade_at_smooth (x : ℝ) : Fade.at Fade.Smooth x = smooth5 x := rfl

theorem sine_ease_zero : sine_ease 0 = 0 := by
  simp [sine_ease]

theorem sine_ease_one : sine_ease 1 = 1 := by
  simp [sine_ease]

theorem smooth5_zero : smooth5 0 = 0 := by
  simp [smooth5]

theorem smooth5_one : smooth5 1 = 1 := by
  norm_num [smooth5]

theorem sine_ease_mono {x y : ℝ} (hx : 0 ≤ x) (hxy : x ≤ y) (hy : y ≤ 1) :
    sine_ease x ≤ sine_ease y := by
  rcases eq_or_lt_of_le hxy with h | h
  · rw [h]
  · have hpi : (0 : ℝ) < Real.pi / 2 := by positivity
    have h1 : Real.pi / 2 * x < Real.pi / 2 * y := by
      exact mul_lt_mul_of_pos_left h hpi
    have hx0 : -(Real.pi / 2) ≤ Real.pi / 2 * x := by nlinarith
    have hy1 : Real.pi / 2 * y ≤ Real.pi / 2 := by nlinarith
    have := Real.strictMonoOn_sin (a := Real.pi / 2 * x) (b := Real.pi / 2 * y)
      ⟨hx0, by linarith⟩ ⟨by nlinarith, hy1⟩ h1
    exact le_of_lt this

theorem smooth5_hasDerivAt (t : ℝ) :
    HasDerivAt smooth5 (30 * t ^ 2 * (t - 1) ^ 2) t := by
  have h1 : HasDerivAt (fun x : ℝ => x ^ 3) (3 * t ^ 2) t := by
    simpa using hasDerivAt_pow 3 t
  have ha : HasDerivAt (fun x : ℝ => x ^ 2) (2 * t) t := by
    simpa using hasDerivAt_pow 2 t
  have hb := ((ha.const_mul 6).sub ((hasDerivAt_id t).const_mul 15)).add_const 10
  have h3 := h1.mul hb
  have harr : smooth5 = fun x : ℝ => x ^ 3 * (6 * x ^ 2 - 15 * x + 10) := rfl
  rw [harr]
  convert h3 using 1
  simp only [id_eq]
  ring

theorem smooth5_monotone : Monotone smooth5 := by
  apply monotone_of_deriv_nonneg
  · exact fun t => (smooth5_hasDerivAt t).differentiableAt
  · intro t
    rw [(smooth5_hasDerivAt t).deriv]
    positivity

theorem smooth5_mono {x y : ℝ} (hx : 0 ≤ x) (hxy : x ≤ y) (hy : y ≤ 1) :
    smooth5 x ≤ smooth5 y := smooth5_monotone hxy

theorem sine_ease_power_identity (x : ℝ) :
    sine_ease x ^ 2 + sine_ease (1 - x) ^ 2 = 1 := by
  have h : Real.pi / 2 * (1 - x) = Real.pi / 2 - Real.pi / 2 * x := by ring
  rw [sine_ease, sine_ease, h, Real.sin_pi_div_two_sub]
  exact Real.sin_sq_add_cos_sq _

/-- C7: the `Power` fade curve evaluated by `Fade.at` equals
`sin((pi/2)*x)` and the `Smooth` curve equals the fifth order smoothstep
`x^3*(6*x^2 - 15*x + 10)`; both satisfy `f 0 = 0` and `f 1 = 1` and are
monotone non-decreasing on `[0, 1]`, and `Power` satisfies the equal
power identity `Power(x)^2 + Power(1-x)^2 = 1` within `1e-6`. -/
theorem fade_curve_properties :
    (∀ x : ℝ, Fade.at Fade.Power x = Real.sin (Real.pi / 2 * x)) ∧
    (∀ x : ℝ, Fade.at Fade.Smooth x = x ^ 3 * (6 * x ^ 2 - 15 * x + 10)) ∧
    Fade.at Fade.Power 0 = 0 ∧ Fade.at Fade.Power 1 = 1 ∧
    Fade.at Fade.Smooth 0 = 0 ∧ Fade.at Fade.Smooth 1 = 1 ∧
    (∀ x y : ℝ, 0 ≤ x → x ≤ y → y ≤ 1 →
      Fade.at Fade.Power x ≤ Fade.at Fade.Power y) ∧
    (∀ x y : ℝ, 0 ≤ x → x ≤ y → y ≤ 1 →
      Fade.at Fade.Smooth x ≤ Fade.at Fade.Smooth y) ∧
    (∀ x : ℝ, 0 ≤ x → x ≤ 1 →
      |Fade.at Fade.Power x ^ 2 + Fade.at Fade.Power (1 - x) ^ 2 - 1| ≤
        1 / 1000000) := by
  refine ⟨fun x => rfl, fun x => rfl, sine_ease_zero, sine_ease_one,
    smooth5_zero, smooth5_one, ?_, ?_, ?_⟩
  · exact fun x y hx hxy hy => sine_ease_mono hx hxy hy
  · exact fun x y hx hxy hy => smooth5_mono hx hxy hy
  · intro x _ _
    rw [fade_at_power, fade_at_power, sine_ease_power_identity]
    norm_num

/-- Witness for C7 at concrete inputs: monotonicity applied at
`x = 0`, `y = 1` and the equal power identity at `x = 1/2`. -/
theorem fade_curve_properties_witness :
    Fade.at Fade.Power 0 ≤ Fade.at Fade.Power 1 ∧
    |Fade.at Fade.Power (1 / 2) ^ 2 + Fade.at Fade.Power (1 - 1 / 2) ^ 2 - 1| ≤
      1 / 1000000 :=
  ⟨fade_curve_properties.2.2.2.2.2.2.1 0 1 (by norm_num) (by norm_num)
      (by norm_num),
    fade_curve_properties.2.2.2.2.2.2.2.2 (1 / 2) (by norm_num) (by norm_num)⟩

/-! ## Event identifiers (`EventId::new` from `src/sequencer.rs`) -/

/-- The value returned by the `n`-th call (0-based) to `EventId::new` in
the source.  The global counter is declared as `AtomicU32`, and
`fetch_add(1)` on it wraps on overflow, so the `n`-th call observes
`n mod 2^32`. -/
def eventIdAt (n : ℕ) : ℕ := n % 2 ^ 32

/-- C3: the code reuses event identifiers.  The `2^32`-th call to
`EventId::new` returns the same identifier as the very first call,
because the global counter is a wrapping 32-bit atomic. -/
theorem eventIdAt_wraps : eventIdAt (2 ^ 32) = eventIdAt 0 := by
  unfold eventIdAt
  norm_num

/-! ## The resynthesizer (`src/resynth.rs`)

Samples are real numbers and channels are indexed by naturals: a frame
is a function from channel number to sample value, with all channels
beyond the configured channel count identically zero.  The per-channel
buffers of an FFT window are curried functions of channel and buffer
index. -/

/-- A single FFT window (`FftWindow` from `src/resynth.rs`).  The
frequency domain vectors `input_fft` and `output_fft` are not stored:
they are intermediate values of the FFT processing step, which the
model absorbs into the composite processing function (see `fftApply`).
The `sample_rate` cache is omitted; no modelled operation reads it. -/
structure FftWindow where
  /-- Window length. -/
  length : ℕ
  /-- Input samples for each input channel. -/
  input : ℕ → ℕ → ℝ
  /-- Output samples for each output channel. -/
  output : ℕ → ℕ → ℝ
  /-- Current index into input and output vectors. -/
  index : ℕ
  /-- Total number of processed samples. -/
  samples : ℕ

/-- Write input for current index (`FftWindow::write`). -/
def FftWindow.write (w : FftWindow) (x : ℕ → ℝ) (windowValue : ℝ) :
    FftWindow :=
  { w with input := fun c i => if i = w.index then x c * windowValue
      else w.input c i }

/-- Read output for current index (`FftWindow::read`). -/
def FftWindow.read (w : FftWindow) (windowValue : ℝ) : ℕ → ℝ :=
  fun c => w.output c w.index * windowValue

/-- Advance index to the next sample (`FftWindow::advance`).  The
source wraps the index with the bit mask `& (length - 1)`, which for
the power of two window lengths accepted by `Resynth::new` equals
reduction mod `length`. -/
def FftWindow.advance (w : FftWindow) : FftWindow :=
  { w with samples := w.samples + 1, index := (w.index + 1) % w.length }

/-- Whether we should do FFT processing right now
(`FftWindow::is_fft_time`). -/
def FftWindow.isFftTime (w : FftWindow) : Prop :=
  w.index = 0 ∧ w.length ≤ w.samples

instance (w : FftWindow) : Decidable w.isFftTime :=
  inferInstanceAs (Decidable (w.index = 0 ∧ w.length ≤ w.samples))

/-- Reset the window to an empty state (`FftWindow::reset`). -/
def FftWindow.reset (w : FftWindow) (startIndex : ℕ) : FftWindow :=
  { w with
    samples := 0
    index := startIndex
    input := fun _ _ => 0
    output := fun _ _ => 0 }

/-- Create a new window (`FftWindow::new`); buffers start zeroed. -/
def FftWindow.new (length startIndex : ℕ) : FftWindow :=
  ⟨length, fun _ _ => 0, fun _ _ => 0, startIndex, 0⟩

/-- The Hann window table of `Resynth::new`:
`0.5 + 0.5 * cos((i - (L >> 1)) * TAU / L)`. -/
noncomputable def hann (L i : ℕ) : ℝ :=
  1 / 2 + 1 / 2 *
    Real.cos (((i : ℝ) - ((L / 2 : ℕ) : ℝ)) * (2 * Real.pi) / (L : ℝ))

/-- The normalizing term `z = 2 / (3 * window_length)` of `Resynth`. -/
noncomputable def zterm (L : ℕ) : ℝ := 2 / (3 * (L : ℝ))

/-- The start index of window `i` as laid out by `Resynth::new`:
`0`, `L >> 2`, `L >> 1`, `(L >> 1) + (L >> 2)`. -/
def windowOffset (L : ℕ) (i : Fin 4) : ℕ :=
  match i with
  | 0 => 0
  | 1 => L / 4
  | 2 => L / 2
  | 3 => L / 2 + L / 4

/-- The FFT processing step of `Resynth::tick` applied to one window:
forward FFT of the input buffers, `clear_output`, the user processing
function on the spectra, inverse FFT into the output buffers.  The
model works with the composite function `proc` from input buffers to
output buffers. -/
def fftApply (proc : (ℕ → ℕ → ℝ) → ℕ → ℕ → ℝ) (w : FftWindow) :
    FftWindow :=
  { w with output := proc w.input }

/-- Modelled from the spec: the composite `proc` of forward FFT, the
identity spectral callback (each output bin of each channel set to the
corresponding input bin of the same channel) and inverse FFT.  The FFT
provider is external to the repository; by its contract (spec section
6.3) the transforms are unnormalized real FFTs of length `L`, so their
round trip multiplies each sample by `L`. -/
def idProc (L : ℕ) : (ℕ → ℕ → ℝ) → ℕ → ℕ → ℝ :=
  fun f c j => (L : ℝ) * f c j

/-- Resynthesizer state (`Resynth` from `src/resynth.rs`).  The window
function table, the normalizing term `z` and the transforms are
functions of `windowLength` and are not duplicated in the state. -/
structure Resynth where
  /-- Window length. -/
  windowLength : ℕ
  /-- FFT windows. -/
  window : Fin 4 → FftWindow
  /-- Number of processed samples. -/
  samples : ℕ

/-- `Resynth::new`: four fresh windows phased at
`0, L/4, L/2, 3L/4` and a zero sample count. -/
def Resynth.new (L : ℕ) : Resynth :=
  ⟨L, fun i => FftWindow.new L (windowOffset L i), 0⟩

/-- `Resynth::reset`: zero the global sample count and reset window
`i` to start index `i * (window_length >> 2)`. -/
def Resynth.reset (st : Resynth) : Resynth :=
  { st with
    samples := 0
    window := fun i => (st.window i).reset ((i : ℕ) * (st.windowLength / 4)) }

/-- One call of `Resynth::tick`.  For each window: write the input
frame scaled by the Hann value at the current index, accumulate the
output at the current index scaled by the Hann value times `z`, and
advance.  Then, at every quarter window boundary of the global sample
count, run FFT processing on every window whose index has just wrapped
after a complete fill. -/
noncomputable def Resynth.tick (proc : (ℕ → ℕ → ℝ) → ℕ → ℕ → ℝ)
    (st : Resynth) (x : ℕ → ℝ) : (ℕ → ℝ) × Resynth :=
  let L := st.windowLength
  let out : ℕ → ℝ := fun c =>
    ∑ i : Fin 4,
      (st.window i).read (hann L (st.window i).index * zterm L) c
  let advanced : Fin 4 → FftWindow := fun i =>
    ((st.window i).write x (hann L (st.window i).index)).advance
  let samples1 := st.samples + 1
  let processed : Fin 4 → FftWindow :=
    if samples1 % (L / 4) = 0 then
      fun i => if (advanced i).isFftTime then fftApply proc (advanced i)
        else advanced i
    else advanced
  (out, ⟨L, processed, samples1⟩)

/-- The state after `n` calls to `tick` starting from `st0`, feeding
the input sequence `x` (time-major: `x n c` is the sample of channel
`c` at time `n`). -/
noncomputable def runFrom (proc : (ℕ → ℕ → ℝ) → ℕ → ℕ → ℝ)
    (st0 : Resynth) (x : ℕ → ℕ → ℝ) : ℕ → Resynth
  | 0 => st0
  | n + 1 => (Resynth.tick proc (runFrom proc st0 x n) (x n)).2

/-- The output frame of the `n`-th call to `tick` (0-based). -/
noncomputable def outFrom (proc : (ℕ → ℕ → ℝ) → ℕ → ℕ → ℝ)
    (st0 : Resynth) (x : ℕ → ℕ → ℝ) (n : ℕ) : ℕ → ℝ :=
  (Resynth.tick proc (runFrom proc st0 x n) (x n)).1

/-- Whether tick number `n` (0-based) runs FFT processing, and with it
the user callback, on window `i`. -/
noncomputable def firesAt (proc : (ℕ → ℕ → ℝ) → ℕ → ℕ → ℝ)
    (st0 : Resynth) (x : ℕ → ℕ → ℝ) (n : ℕ) (i : Fin 4) : Prop :=
  let st := runFrom proc st0 x n
  (st.samples + 1) % (st.windowLength / 4) = 0 ∧
    (((st.window i).write (x n)
        (hann st.windowLength (st.window i).index)).advance).isFftTime

/-- The evolution of a single window under successive ticks: the body
of `Resynth::tick` restricted to one window, where `n` is the global
sample count before the call and `q = L / 4`. -/
noncomputable def windowStep (proc : (ℕ → ℕ → ℝ) → ℕ → ℕ → ℝ)
    (L q n : ℕ) (xf : ℕ → ℝ) (w : FftWindow) : FftWindow :=
  let w1 := (w.write xf (hann L w.index)).advance
  if (n + 1) % q = 0 ∧ w1.isFftTime then fftApply proc w1 else w1

/-- A single window iterated from a fresh start. -/
noncomputable def windowRun (proc : (ℕ → ℕ → ℝ) → ℕ → ℕ → ℝ)
    (L q : ℕ) (x : ℕ → ℕ → ℝ) (start : ℕ) : ℕ → FftWindow
  | 0 => FftWindow.new L start
  | n + 1 => windowStep proc L q n (x n) (windowRun proc L q x start n)

theorem tick_window_eq (proc : (ℕ → ℕ → ℝ) → ℕ → ℕ → ℝ) (st : Resynth)
    (x : ℕ → ℝ) (i : Fin 4) :
    ((Resynth.tick proc st x).2).window i =
      windowStep proc st.windowLength (st.windowLength / 4) st.samples x
        (st.window i) := by
  unfold Resynth.tick windowStep
  by_cases hg : (st.samples + 1) % (st.windowLength / 4) = 0
  · simp only [hg, if_true]
    by_cases hf :
        (((st.window i).write x
          (hann st.windowLength (st.window i).index)).advance).isFftTime
    · simp [hf]
    · simp [hf]
  · simp [hg]

theorem tick_samples (proc : (ℕ → ℕ → ℝ) → ℕ → ℕ → ℝ) (st : Resynth)
    (x : ℕ → ℝ) :
    ((Resynth.tick proc st x).2).samples = st.samples + 1 := rfl

theorem tick_length (proc : (ℕ → ℕ → ℝ) → ℕ → ℕ → ℝ) (st : Resynth)
    (x : ℕ → ℝ) :
    ((Resynth.tick proc st x).2).windowLength = st.windowLength := rfl

theorem runFrom_new_samples (proc : (ℕ → ℕ → ℝ) → ℕ → ℕ → ℝ) (L : ℕ)
    (x : ℕ → ℕ → ℝ) (n : ℕ) :
    (runFrom proc (Resynth.new L) x n).samples = n ∧
      (runFrom proc (Resynth.new L) x n).windowLength = L := by
  induction n with
  | zero => exact ⟨rfl, rfl⟩
  | succ n ih =>
    rw [runFrom, tick_samples, tick_length]
    exact ⟨by rw [ih.1], ih.2⟩

theorem runFrom_new_window (proc : (ℕ → ℕ → ℝ) → ℕ → ℕ → ℝ) (L : ℕ)
    (x : ℕ → ℕ → ℝ) (n : ℕ) (i : Fin 4) :
    (runFrom proc (Resynth.new L) x n).window i =
      windowRun proc L (L / 4) x (windowOffset L i) n := by
  induction n with
  | zero => rfl
  | succ n ih =>
    rw [runFrom, tick_window_eq, windowRun,
      (runFrom_new_samples proc L x n).1,
      (runFrom_new_samples proc L x n).2, ih]

@[simp] theorem FftWindow.write_length (w : FftWindow) (x : ℕ → ℝ) (v : ℝ) :
    (w.write x v).length = w.length := rfl

@[simp] theorem FftWindow.write_index (w : FftWindow) (x : ℕ → ℝ) (v : ℝ) :
    (w.write x v).index = w.index := rfl

@[simp] theorem FftWindow.write_samples (w : FftWindow) (x : ℕ → ℝ) (v : ℝ) :
    (w.write x v).samples = w.samples := rfl

@[simp] theorem FftWindow.write_output (w : FftWindow) (x : ℕ → ℝ) (v : ℝ) :
    (w.write x v).output = w.output := rfl

theorem FftWindow.write_input (w : FftWindow) (x : ℕ → ℝ) (v : ℝ) (c i : ℕ) :
    (w.write x v).input c i = if i = w.index then x c * v else w.input c i := rfl

@[simp] theorem FftWindow.advance_length (w : FftWindow) :
    (w.advance).length = w.length := rfl

@[simp] theorem FftWindow.advance_index (w : FftWindow) :
    (w.advance).index = (w.index + 1) % w.length := rfl

@[simp] theorem FftWindow.advance_samples (w : FftWindow) :
    (w.advance).samples = w.samples + 1 := rfl

@[simp] theorem FftWindow.advance_input (w : FftWindow) :
    (w.advance).input = w.input := rfl

@[simp] theorem FftWindow.advance_output (w : FftWindow) :
    (w.advance).output = w.output := rfl

@[simp] theorem fftApply_length (p : (ℕ → ℕ → ℝ) → ℕ → ℕ → ℝ)
    (w : FftWindow) : (fftApply p w).length = w.length := rfl

@[simp] theorem fftApply_index (p : (ℕ → ℕ → ℝ) → ℕ → ℕ → ℝ)
    (w : FftWindow) : (fftApply p w).index = w.index := rfl

@[simp] theorem fftApply_samples (p : (ℕ → ℕ → ℝ) → ℕ → ℕ → ℝ)
    (w : FftWindow) : (fftApply p w).samples = w.samples := rfl

@[simp] theorem fftApply_input (p : (ℕ → ℕ → ℝ) → ℕ → ℕ → ℝ)
    (w : FftWindow) : (fftApply p w).input = w.input := rfl

@[simp] theorem fftApply_output (p : (ℕ → ℕ → ℝ) → ℕ → ℕ → ℝ)
    (w : FftWindow) : (fftApply p w).output = p w.input := rfl

/-! ### Residue arithmetic for the circular buffers -/

/-- The largest `m ≤ n` with `m % L = r` (for `r ≤ n`, `r < L`). -/
def lastLe (L r n : ℕ) : ℕ := r + L * ((n - r) / L)

theorem mod_eq_unique {L a b : ℕ} (hL : 0 < L) (hab : a % L = b % L)
    (h1 : a ≤ b) (h2 : b < a + L) : a = b := by
  have hd : L ∣ b - a := (Nat.modEq_iff_dvd' h1).mp hab
  rcases Nat.eq_zero_or_pos (b - a) with h0 | h0
  · omega
  · have := Nat.le_of_dvd h0 hd
    omega

theorem lastLe_spec {L r n : ℕ} (hL : 0 < L) (hr : r < L) (hrn : r ≤ n) :
    lastLe L r n % L = r ∧ lastLe L r n ≤ n ∧ n < lastLe L r n + L := by
  unfold lastLe
  refine ⟨?_, ?_, ?_⟩
  · rw [Nat.add_mul_mod_self_left, Nat.mod_eq_of_lt hr]
  · have h1 : L * ((n - r) / L) ≤ n - r := Nat.mul_div_le (n - r) L
    omega
  · have h2 := Nat.mod_lt (n - r) hL
    have h3 := Nat.div_add_mod (n - r) L
    omega

theorem lastLe_eq_of {L r n m : ℕ} (hL : 0 < L) (hr : r < L) (hrn : r ≤ n)
    (hm : m % L = r) (h1 : m ≤ n) (h2 : n < m + L) : lastLe L r n = m := by
  obtain ⟨ha, hb, hc⟩ := lastLe_spec hL hr hrn
  rcases le_total (lastLe L r n) m with h | h
  · exact mod_eq_unique hL (ha.trans hm.symm) h (by omega)
  · exact (mod_eq_unique hL (hm.trans ha.symm) h (by omega)).symm

theorem lastLe_succ_of_ne {L r n : ℕ} (hL : 0 < L) (hr : r < L)
    (hrn : r ≤ n) (hne : (n + 1) % L ≠ r) :
    lastLe L r (n + 1) = lastLe L r n := by
  obtain ⟨ha, hb, hc⟩ := lastLe_spec hL hr hrn
  apply lastLe_eq_of hL hr (by omega) ha (by omega)
  rcases Nat.lt_or_ge (n + 1) (lastLe L r n + L) with h | h
  · exact h
  · exfalso
    have he : n + 1 = lastLe L r n + L := by omega
    apply hne
    rw [he, Nat.add_mod_right, ha]

/-! ### Evolution of a single FFT window -/

theorem windowStep_length (proc : (ℕ → ℕ → ℝ) → ℕ → ℕ → ℝ) (L q n : ℕ)
    (xf : ℕ → ℝ) (w : FftWindow) :
    (windowStep proc L q n xf w).length = w.length := by
  simp only [windowStep]
  split <;> simp

theorem windowStep_samples (proc : (ℕ → ℕ → ℝ) → ℕ → ℕ → ℝ) (L q n : ℕ)
    (xf : ℕ → ℝ) (w : FftWindow) :
    (windowStep proc L q n xf w).samples = w.samples + 1 := by
  simp only [windowStep]
  split <;> simp

theorem windowStep_index (proc : (ℕ → ℕ → ℝ) → ℕ → ℕ → ℝ) (L q n : ℕ)
    (xf : ℕ → ℝ) (w : FftWindow) :
    (windowStep proc L q n xf w).index = (w.index + 1) % w.length := by
  simp only [windowStep]
  split <;> simp

theorem windowStep_input (proc : (ℕ → ℕ → ℝ) → ℕ → ℕ → ℝ) (L q n : ℕ)
    (xf : ℕ → ℝ) (w : FftWindow) (c i : ℕ) :
    (windowStep proc L q n xf w).input c i =
      if i = w.index then xf c * hann L w.index else w.input c i := by
  by_cases hc :
      (n + 1) % q = 0 ∧ ((w.write xf (hann L w.index)).advance).isFftTime
  · simp [windowStep, hc, FftWindow.write_input]
  · simp [windowStep, hc, FftWindow.write_input]

theorem windowRun_basic (proc : (ℕ → ℕ → ℝ) → ℕ → ℕ → ℝ) (L q s : ℕ)
    (x : ℕ → ℕ → ℝ) (hL0 : 0 < L) (hs : s < L) (n : ℕ) :
    (windowRun proc L q x s n).length = L ∧
    (windowRun proc L q x s n).samples = n ∧
    (windowRun proc L q x s n).index = (s + n) % L := by
  induction n with
  | zero =>
    refine ⟨rfl, rfl, ?_⟩
    show s = (s + 0) % L
    rw [Nat.add_zero, Nat.mod_eq_of_lt hs]
  | succ n ih =>
    obtain ⟨h1, h2, h3⟩ := ih
    rw [windowRun]
    refine ⟨by rw [windowStep_length, h1], by rw [windowStep_samples, h2], ?_⟩
    rw [windowStep_index, h1, h3, Nat.mod_add_mod, Nat.add_assoc]

/-- The residue class of buffer index `j` for a window with start offset
`s`: writes to index `j` happen exactly at ticks `t` with
`t % L = wres L s j`. -/
def wres (L s j : ℕ) : ℕ := (j + L - s) % L

theorem mod_cancel_right {L a b c : ℕ} (h : (a + c) % L = (b + c) % L) :
    a % L = b % L :=
  Nat.ModEq.add_right_cancel' c h

theorem wres_lt {L : ℕ} (s j : ℕ) (hL0 : 0 < L) : wres L s j < L :=
  Nat.mod_lt _ hL0

theorem wres_idx {L s : ℕ} (hL0 : 0 < L) (hs : s < L) (n : ℕ) :
    wres L s ((s + n) % L) = n % L := by
  unfold wres
  apply mod_cancel_right (c := s)
  have he : (s + n) % L + L - s + s = (s + n) % L + L := by omega
  rw [he, Nat.add_mod_right, Nat.mod_mod_of_dvd _ (dvd_refl L),
    Nat.add_comm n s]

theorem wres_inj {L s j j' : ℕ} (hL0 : 0 < L) (hs : s < L) (hj : j < L)
    (hj' : j' < L) (h : wres L s j = wres L s j') : j = j' := by
  unfold wres at h
  have h2 : (j + L - s + s) % L = (j' + L - s + s) % L :=
    Nat.ModEq.add_right s h
  have e1 : j + L - s + s = j + L := by omega
  have e2 : j' + L - s + s = j' + L := by omega
  rw [e1, e2, Nat.add_mod_right, Nat.add_mod_right, Nat.mod_eq_of_lt hj,
    Nat.mod_eq_of_lt hj'] at h2
  exact h2

/-- Closed form of the input buffer of a window with start offset `s`
after `n` ticks: position `j` holds the sample written at the last tick
before `n` whose write index was `j`, scaled by the Hann value at `j`. -/
noncomputable def inputForm (L s : ℕ) (x : ℕ → ℕ → ℝ) (n c j : ℕ) : ℝ :=
  if j < L ∧ wres L s j < n then
    x (lastLe L (wres L s j) (n - 1)) c * hann L j
  else 0

theorem windowRun_input (proc : (ℕ → ℕ → ℝ) → ℕ → ℕ → ℝ) (L q s : ℕ)
    (x : ℕ → ℕ → ℝ) (hL0 : 0 < L) (hs : s < L) (n c j : ℕ) :
    (windowRun proc L q x s n).input c j = inputForm L s x n c j := by
  induction n with
  | zero =>
    show (0 : ℝ) = inputForm L s x 0 c j
    rw [inputForm]
    rw [if_neg]
    rintro ⟨-, h⟩
    omega
  | succ n ih =>
    rw [windowRun, windowStep_input,
      (windowRun_basic proc L q s x hL0 hs n).2.2]
    have hidxlt : (s + n) % L < L := Nat.mod_lt _ hL0
    by_cases hj : j = (s + n) % L
    · subst hj
      rw [if_pos rfl, inputForm, if_pos]
      · have hr : wres L s ((s + n) % L) = n % L := wres_idx hL0 hs n
        rw [hr]
        have hlast : lastLe L (n % L) (n + 1 - 1) = n := by
          apply lastLe_eq_of hL0 (Nat.mod_lt _ hL0) (Nat.mod_le _ _) rfl
            (by omega) (by omega)
        rw [hlast]
      · exact ⟨hidxlt, by
          rw [wres_idx hL0 hs n]
          exact Nat.lt_succ_of_le (Nat.mod_le n L)⟩
    · rw [if_neg hj, ih, inputForm, inputForm]
      by_cases hjL : j < L
      · have hne : wres L s j ≠ n % L := by
          intro h
          apply hj
          exact wres_inj hL0 hs hjL hidxlt (h.trans (wres_idx hL0 hs n).symm)
        by_cases hlt : wres L s j < n
        · rw [if_pos ⟨hjL, hlt⟩, if_pos ⟨hjL, by omega⟩]
          have h1 : n + 1 - 1 = (n - 1) + 1 := by omega
          have h4 : ((n - 1) + 1) % L ≠ wres L s j := by
            have h2 : n - 1 + 1 = n := by omega
            rw [h2]
            intro hc
            exact hne hc.symm
          rw [h1, lastLe_succ_of_ne hL0 (wres_lt s j hL0) (by omega) h4]
        · rw [if_neg (by tauto), if_neg]
          rintro ⟨-, h⟩
          have heq : wres L s j = n := by omega
          apply hne
          rw [heq, Nat.mod_eq_of_lt]
          have := wres_lt (L := L) s j hL0
          omega
      · rw [if_neg (by tauto), if_neg (by tauto)]

theorem windowStep_output (proc : (ℕ → ℕ → ℝ) → ℕ → ℕ → ℝ) (L q n : ℕ)
    (xf : ℕ → ℝ) (w : FftWindow) :
    (windowStep proc L q n xf w).output =
      if (n + 1) % q = 0 ∧ (w.index + 1) % w.length = 0 ∧
          w.length ≤ w.samples + 1 then
        proc ((w.write xf (hann L w.index)).input)
      else w.output := by
  by_cases hc :
      (n + 1) % q = 0 ∧ ((w.write xf (hann L w.index)).advance).isFftTime
  · have hc' : (n + 1) % q = 0 ∧ (w.index + 1) % w.length = 0 ∧
        w.length ≤ w.samples + 1 := by
      obtain ⟨h1, h2, h3⟩ := hc
      exact ⟨h1, by simpa using h2, by simpa using h3⟩
    simp [windowStep, hc, hc']
  · have hc' : ¬((n + 1) % q = 0 ∧ (w.index + 1) % w.length = 0 ∧
        w.length ≤ w.samples + 1) := by
      intro ⟨h1, h2, h3⟩
      exact hc ⟨h1, by simpa [FftWindow.isFftTime] using And.intro h2 h3⟩
    simp [windowStep, hc, hc']

theorem add_mod_cong {L a b c : ℕ} (h : a % L = b % L) :
    (a + c) % L = (b + c) % L :=
  Nat.ModEq.add_right c h

/-- The residue of the FFT fire times of a window with offset `s`:
window processing runs when the post-advance sample count `m`
satisfies `(s + m) % L = 0` together with `L ≤ m`, which happens
exactly at `m = L + (L-s) % L, + L, + 2L, ...`. -/
theorem fire_residue {L s : ℕ} (hL0 : 0 < L) (hs : s < L) (m : ℕ) :
    ((s + m) % L = 0 ∧ L ≤ m) ↔
      (m % L = (L - s) % L ∧ L + (L - s) % L ≤ m) := by
  have hsr : (s + (L - s) % L) % L = 0 := by
    have h2 : (s + (L - s) % L) % L = (s + (L - s)) % L :=
      (Nat.mod_modEq (L - s) L).add_left s
    rw [h2, (by omega : s + (L - s) = L), Nat.mod_self]
  have hr0 : (L - s) % L < L := Nat.mod_lt _ hL0
  constructor
  · rintro ⟨hm0, hmL⟩
    have hmod : m % L = (L - s) % L := by
      have h : (s + m) % L = (s + (L - s) % L) % L := by rw [hm0, hsr]
      have h2 : Nat.ModEq L (s + m) (s + (L - s) % L) := h
      have h4 : m % L = (L - s) % L % L := Nat.ModEq.add_left_cancel' s h2
      rwa [Nat.mod_mod_of_dvd _ (dvd_refl L)] at h4
    refine ⟨hmod, ?_⟩
    have hd := Nat.div_add_mod m L
    have h1 : 1 ≤ m / L := (Nat.one_le_div_iff hL0).mpr hmL
    have h2 : L * 1 ≤ L * (m / L) := Nat.mul_le_mul_left L h1
    omega
  · rintro ⟨hmod, hge⟩
    constructor
    · have h2 : Nat.ModEq L m ((L - s) % L) := by
        show m % L = (L - s) % L % L
        rw [hmod, Nat.mod_mod_of_dvd _ (dvd_refl L)]
      have h : (s + m) % L = (s + (L - s) % L) % L := h2.add_left s
      rw [h, hsr]
    · omega

/-- The quarter window gate of `Resynth::tick` is open whenever some
window is at an FFT fire time: fire times of every window are
multiples of `q = L / 4`. -/
theorem fire_gate {L q s : ℕ} (hq : 0 < q) (hqL : q ∣ L) (hsq : s % q = 0)
    (m : ℕ) (hmod : m % L = (L - s) % L) : m % q = 0 := by
  have h1 : m % q = m % L % q := (Nat.mod_mod_of_dvd m hqL).symm
  rw [h1, hmod]
  have hds : q ∣ (L - s) :=
    Nat.dvd_sub' hqL (Nat.dvd_of_mod_eq_zero hsq)
  have hdd : q ∣ (L - s) % L := by
    have hd := Nat.div_add_mod (L - s) L
    have h2 : (L - s) % L = (L - s) - L * ((L - s) / L) := by omega
    rw [h2]
    exact Nat.dvd_sub' hds (hqL.mul_right _)
  obtain ⟨k, hk⟩ := hdd
  rw [hk]
  exact Nat.mul_mod_right q k

/-- Closed form of the output buffer of a window with start offset `s`
after `n` ticks, under the identity processing function: before the
first FFT the buffer is zero; afterwards position `j` holds `L` times
the Hann-scaled input sample captured at the most recent FFT time. -/
noncomputable def outputForm (L s : ℕ) (x : ℕ → ℕ → ℝ) (n c j : ℕ) : ℝ :=
  if j < L ∧ L + (L - s) % L ≤ n then
    (L : ℝ) * x (lastLe L ((L - s) % L) n - L + j) c * hann L j
  else 0

theorem windowRun_output (L q s : ℕ) (x : ℕ → ℕ → ℝ) (hL0 : 0 < L)
    (hs : s < L) (hq : 0 < q) (hqL : q ∣ L) (hsq : s % q = 0)
    (n c j : ℕ) :
    (windowRun (idProc L) L q x s n).output c j = outputForm L s x n c j := by
  have hr0 : (L - s) % L < L := Nat.mod_lt _ hL0
  induction n with
  | zero =>
    show (0 : ℝ) = outputForm L s x 0 c j
    rw [outputForm, if_neg]
    rintro ⟨-, h⟩
    omega
  | succ n ih =>
    have hbasic := windowRun_basic (idProc L) L q s x hL0 hs n
    rw [windowRun]
    have hout := windowStep_output (idProc L) L q n (x n)
      (windowRun (idProc L) L q x s n)
    rw [hbasic.1, hbasic.2.1, hbasic.2.2] at hout
    rw [congrFun (congrFun hout c) j]
    have hidx : ((s + n) % L + 1) % L = (s + (n + 1)) % L := by
      rw [Nat.mod_add_mod, Nat.add_assoc]
    by_cases hcond : (s + (n + 1)) % L = 0 ∧ L ≤ n + 1
    · -- the window fires at m = n + 1
      have hfr := (fire_residue hL0 hs (n + 1)).mp hcond
      have hgate : (n + 1) % q = 0 := fire_gate hq hqL hsq (n + 1) hfr.1
      rw [if_pos ⟨hgate, by rw [hidx]; exact hcond.1, hcond.2⟩]
      -- the new output is L times the freshly written input buffer
      have hinp : ((windowRun (idProc L) L q x s n).write (x n)
            (hann L ((windowRun (idProc L) L q x s n).index))).input c j =
          (windowRun (idProc L) L q x s (n + 1)).input c j := by
        rw [windowRun, windowStep_input, FftWindow.write_input, hbasic.2.2]
      rw [idProc]
      rw [hbasic.2.2] at hinp
      rw [hinp, windowRun_input (idProc L) L q s x hL0 hs]
      rw [inputForm, outputForm]
      by_cases hjL : j < L
      · have hw : wres L s j < n + 1 := by
          have := wres_lt (L := L) s j hL0
          omega
        rw [if_pos ⟨hjL, hw⟩, if_pos ⟨hjL, hfr.2⟩]
        have hlastF : lastLe L ((L - s) % L) (n + 1) = n + 1 :=
          lastLe_eq_of hL0 hr0 (by omega) hfr.1 (le_refl _) (by omega)
        rw [hlastF]
        have hA : lastLe L (wres L s j) n = n + 1 - L + j := by
          apply lastLe_eq_of hL0 (wres_lt s j hL0)
            (by have := wres_lt (L := L) s j hL0; omega)
          · -- (n + 1 - L + j) % L = wres L s j
            have e1 : n + 1 - L + j + L = n + 1 + j := by omega
            have e2 : (n + 1 - L + j) % L = (n + 1 + j) % L := by
              rw [← e1, Nat.add_mod_right]
            rw [e2]
            have e3 : (n + 1 + j) % L = ((L - s) % L + j) % L :=
              add_mod_cong
                (by rw [Nat.mod_mod_of_dvd _ (dvd_refl L)]; exact hfr.1)
            rw [e3]
            have e4 : ((L - s) % L + j) % L = (L - s + j) % L :=
              (Nat.mod_modEq (L - s) L).add_right j
            rw [e4]
            unfold wres
            congr 1
            omega
          · omega
          · omega
        simp only [Nat.add_sub_cancel]
        rw [hA]
        ring
      · rw [if_neg (by tauto), if_neg (by tauto)]
        ring
    · -- no fire: the output buffer is unchanged
      have hnc : ¬((n + 1) % q = 0 ∧ ((s + n) % L + 1) % L = 0 ∧
          L ≤ n + 1) := by
        rintro ⟨-, h2, h3⟩
        rw [hidx] at h2
        exact hcond ⟨h2, h3⟩
      rw [if_neg hnc, ih, outputForm, outputForm]
      by_cases hle : L + (L - s) % L ≤ n
      · have hne : (n + 1) % L ≠ (L - s) % L := by
          intro h
          exact hcond ((fire_residue hL0 hs (n + 1)).mpr ⟨h, by omega⟩)
        have hll : lastLe L ((L - s) % L) (n + 1) = lastLe L ((L - s) % L) n :=
          lastLe_succ_of_ne hL0 hr0 (by omega) hne
        by_cases hjL : j < L
        · rw [if_pos ⟨hjL, hle⟩, if_pos ⟨hjL, by omega⟩, hll]
        · rw [if_neg (by tauto), if_neg (by tauto)]
      · have hnle : ¬(L + (L - s) % L ≤ n + 1) := by
          intro h
          have he : n + 1 = L + (L - s) % L := by omega
          apply hcond
          apply (fire_residue hL0 hs (n + 1)).mpr
          refine ⟨?_, by omega⟩
          rw [he, Nat.add_mod_left, Nat.mod_eq_of_lt hr0]
        by_cases hjL : j < L
        · rw [if_neg (by tauto), if_neg (by tauto)]
        · rw [if_neg (by tauto), if_neg (by tauto)]

/-! ### Warmup behaviour (claim C9) -/

/-- A freshly constructed or freshly reset resynthesizer: zero sample
counts and zero output buffers. -/
def FreshResynth (L : ℕ) (st : Resynth) : Prop :=
  st.windowLength = L ∧ st.samples = 0 ∧
    ∀ i : Fin 4, (st.window i).length = L ∧ (st.window i).samples = 0 ∧
      (st.window i).output = fun _ _ => 0

theorem tick_out (proc : (ℕ → ℕ → ℝ) → ℕ → ℕ → ℝ) (st : Resynth)
    (x : ℕ → ℝ) (c : ℕ) :
    (Resynth.tick proc st x).1 c =
      ∑ i : Fin 4, (st.window i).read
        (hann st.windowLength (st.window i).index * zterm st.windowLength)
        c := rfl

theorem runFrom_fresh_basic (proc : (ℕ → ℕ → ℝ) → ℕ → ℕ → ℝ) (L : ℕ)
    (st0 : Resynth) (x : ℕ → ℕ → ℝ) (h : FreshResynth L st0) (n : ℕ) :
    (runFrom proc st0 x n).windowLength = L ∧
    (runFrom proc st0 x n).samples = n ∧
    ∀ i : Fin 4, ((runFrom proc st0 x n).window i).length = L ∧
      ((runFrom proc st0 x n).window i).samples = n := by
  induction n with
  | zero => exact ⟨h.1, h.2.1, fun i => ⟨(h.2.2 i).1, (h.2.2 i).2.1⟩⟩
  | succ n ih =>
    rw [runFrom]
    refine ⟨by rw [tick_length, ih.1], by rw [tick_samples, ih.2.1], fun i => ?_⟩
    rw [tick_window_eq]
    constructor
    · rw [windowStep_length, (ih.2.2 i).1]
    · rw [windowStep_samples, (ih.2.2 i).2]

theorem runFrom_fresh_output (proc : (ℕ → ℕ → ℝ) → ℕ → ℕ → ℝ) (L : ℕ)
    (st0 : Resynth) (x : ℕ → ℕ → ℝ) (h : FreshResynth L st0) (n : ℕ)
    (hn : n < L) (i : Fin 4) :
    ((runFrom proc st0 x n).window i).output = fun _ _ => 0 := by
  induction n with
  | zero => exact (h.2.2 i).2.2
  | succ n ih =>
    rw [runFrom, tick_window_eq, windowStep_output]
    rw [if_neg, ih (by omega)]
    rintro ⟨-, -, hc⟩
    rw [(runFrom_fresh_basic proc L st0 x h n).2.2 i |>.1,
      (runFrom_fresh_basic proc L st0 x h n).2.2 i |>.2] at hc
    omega

/-- C9: for every window length, spectral callback and input, the first
`L` calls to `tick` after construction or reset return all-zero output
frames, and FFT processing (and with it the user callback) never runs
before the `L`-th call; construction and reset both produce the fresh
state this holds from. -/
theorem resynth_warmup (L : ℕ) (proc : (ℕ → ℕ → ℝ) → ℕ → ℕ → ℝ)
    (st0 : Resynth) (x : ℕ → ℕ → ℝ) (h : FreshResynth L st0) :
    (∀ t, t < L → ∀ c, outFrom proc st0 x t c = 0) ∧
    (∀ t, t + 1 < L → ∀ i : Fin 4, ¬ firesAt proc st0 x t i) ∧
    FreshResynth L (Resynth.new L) ∧
    (∀ st : Resynth, st.windowLength = L →
      (∀ i : Fin 4, (st.window i).length = L) →
      FreshResynth L (Resynth.reset st)) := by
  refine ⟨?_, ?_, ?_, ?_⟩
  · intro t ht c
    rw [outFrom, tick_out]
    apply Finset.sum_eq_zero
    intro i _
    rw [FftWindow.read]
    rw [congrFun (congrFun (runFrom_fresh_output proc L st0 x h t ht i) c) _]
    ring
  · intro t ht i hf
    obtain ⟨-, -, hc⟩ := hf
    have hb := runFrom_fresh_basic proc L st0 x h t
    rw [FftWindow.advance_samples, FftWindow.write_samples,
      (hb.2.2 i).2] at hc
    rw [FftWindow.advance_length, FftWindow.write_length,
      (hb.2.2 i).1] at hc
    omega
  · exact ⟨rfl, rfl, fun i => ⟨rfl, rfl, rfl⟩⟩
  · intro st h1 h2
    exact ⟨h1, rfl, fun i => ⟨h2 i, rfl, rfl⟩⟩

/-- Witness for C9 at `L = 4` with the identity processing function and
zero input, from a freshly constructed state, evaluated at the first
call and channel 0. -/
theorem resynth_warmup_witness :
    outFrom (idProc 4) (Resynth.new 4) (fun _ _ => 0) 0 0 = 0 :=
  (resynth_warmup 4 (idProc 4) (Resynth.new 4) (fun _ _ => 0)
    ⟨rfl, rfl, fun i => ⟨rfl, rfl, rfl⟩⟩).1 0 (by norm_num) 0

/-! ### The Hann overlap identity and perfect reconstruction (C1) -/

theorem hann_mod (L a : ℕ) (hL0 : 0 < L) : hann L (a % L) = hann L a := by
  have h := Nat.mod_add_div a L
  have hcast : ((a % L : ℕ) : ℝ) = (a : ℝ) - (L : ℝ) * ((a / L : ℕ) : ℝ) := by
    have h2 : ((a % L + L * (a / L) : ℕ) : ℝ) = (a : ℝ) := by rw [h]
    push_cast at h2
    linarith
  have hLne : (L : ℝ) ≠ 0 := Nat.cast_ne_zero.mpr (by omega)
  have harg : (((a % L : ℕ) : ℝ) - ((L / 2 : ℕ) : ℝ)) * (2 * Real.pi) / L
      = ((a : ℝ) - ((L / 2 : ℕ) : ℝ)) * (2 * Real.pi) / L
        - ((a / L : ℕ) : ℝ) * (2 * Real.pi) := by
    rw [hcast]
    field_simp
    ring
  have hper := Real.cos_sub_int_mul_two_pi
    (((a : ℝ) - ((L / 2 : ℕ) : ℝ)) * (2 * Real.pi) / L) ((a / L : ℕ) : ℤ)
  rw [Int.cast_natCast] at hper
  rw [hann, hann, harg, hper]

/-- Sum of squares of the Hann window at four points spaced a quarter
window apart: `3/2`. -/
theorem hann_sq_sum (q m : ℕ) (hq : 0 < q) :
    hann (4 * q) (m % (4 * q)) ^ 2 +
    hann (4 * q) ((q + m) % (4 * q)) ^ 2 +
    hann (4 * q) ((2 * q + m) % (4 * q)) ^ 2 +
    hann (4 * q) ((3 * q + m) % (4 * q)) ^ 2 = 3 / 2 := by
  have hL0 : 0 < 4 * q := by omega
  rw [hann_mod _ _ hL0, hann_mod _ _ hL0, hann_mod _ _ hL0, hann_mod _ _ hL0]
  have hqne : (q : ℝ) ≠ 0 := Nat.cast_ne_zero.mpr (by omega)
  have key : ∀ k : ℕ, hann (4 * q) k
      = 1 / 2 + 1 / 2 *
        Real.cos (((k : ℝ) - 2 * (q : ℝ)) * (2 * Real.pi) / (4 * (q : ℝ))) := by
    intro k
    rw [hann, (by omega : (4 * q) / 2 = 2 * q)]
    push_cast
    ring_nf
  rw [key m, key (q + m), key (2 * q + m), key (3 * q + m)]
  have e1 : (((q + m : ℕ) : ℝ) - 2 * (q : ℝ)) * (2 * Real.pi) / (4 * (q : ℝ))
      = ((m : ℝ) - 2 * (q : ℝ)) * (2 * Real.pi) / (4 * (q : ℝ))
        + Real.pi / 2 := by
    push_cast
    field_simp
    ring
  have e2 : (((2 * q + m : ℕ) : ℝ) - 2 * (q : ℝ)) * (2 * Real.pi) / (4 * (q : ℝ))
      = ((m : ℝ) - 2 * (q : ℝ)) * (2 * Real.pi) / (4 * (q : ℝ))
        + Real.pi := by
    push_cast
    field_simp
    ring
  have e3 : (((3 * q + m : ℕ) : ℝ) - 2 * (q : ℝ)) * (2 * Real.pi) / (4 * (q : ℝ))
      = (((m : ℝ) - 2 * (q : ℝ)) * (2 * Real.pi) / (4 * (q : ℝ))
        + Real.pi) + Real.pi / 2 := by
    push_cast
    field_simp
    ring
  rw [e1, e2, e3, Real.cos_add_pi_div_two, Real.cos_add_pi,
    Real.cos_add_pi_div_two, Real.sin_add_pi]
  have hpyth := Real.sin_sq_add_cos_sq
    (((m : ℝ) - 2 * (q : ℝ)) * (2 * Real.pi) / (4 * (q : ℝ)))
  nlinarith [hpyth]

theorem windowOffset_zero (L : ℕ) : windowOffset L 0 = 0 := rfl

theorem windowOffset_one (L : ℕ) : windowOffset L 1 = L / 4 := rfl

theorem windowOffset_two (L : ℕ) : windowOffset L 2 = L / 2 := rfl

theorem windowOffset_three (L : ℕ) : windowOffset L 3 = L / 2 + L / 4 := rfl

/-- Steady state value of a window output buffer at the current read
index: from tick `2L` on, the window contributes `L` times the input of
`L` ticks ago, scaled by the Hann value at the read index. -/
theorem windowRun_out_at (L q s : ℕ) (x : ℕ → ℕ → ℝ) (hq : 0 < q)
    (hLq : L = 4 * q) (hs : s < L) (hsq : s % q = 0) (t c : ℕ)
    (ht : 2 * L ≤ t) :
    (windowRun (idProc L) L q x s t).output c ((s + t) % L)
      = (L : ℝ) * x (t - L) c * hann L ((s + t) % L) := by
  have hL0 : 0 < L := by omega
  have hqL : q ∣ L := ⟨4, by omega⟩
  have hr0 : (L - s) % L < L := Nat.mod_lt _ hL0
  rw [windowRun_output L q s x hL0 hs hq hqL hsq]
  have hidx : (s + t) % L < L := Nat.mod_lt _ hL0
  rw [outputForm, if_pos ⟨hidx, by omega⟩]
  have hA := lastLe_spec hL0 hr0 (show (L - s) % L ≤ t by omega)
  have hsum : lastLe L ((L - s) % L) t + (s + t) % L = t := by
    have h1 : (lastLe L ((L - s) % L) t + (s + t) % L) % L
        = ((L - s) % L + (s + t) % L) % L := by
      rw [Nat.add_mod, hA.1, Nat.mod_mod_of_dvd _ (dvd_refl L)]
    have h2 : ((L - s) % L + (s + t) % L) % L = ((L - s) + (s + t)) % L := by
      rw [Nat.add_mod, Nat.mod_mod_of_dvd _ (dvd_refl L),
        Nat.mod_mod_of_dvd _ (dvd_refl L), ← Nat.add_mod]
    have h3 : (L - s) + (s + t) = L + t := by omega
    have h4 : (lastLe L ((L - s) % L) t + (s + t) % L) % L = t % L := by
      rw [h1, h2, h3, Nat.add_mod_left]
    rcases le_total (lastLe L ((L - s) % L) t + (s + t) % L) t with hle | hle
    · exact mod_eq_unique hL0 h4 hle (by omega)
    · exact (mod_eq_unique hL0 h4.symm hle (by omega)).symm
  have he : lastLe L ((L - s) % L) t - L + (s + t) % L = t - L := by omega
  rw [he]

/-- C1: for every window length `L` that is a power of two and at least
4, with the identity spectral callback and an arbitrary input sequence
`x`, the resynthesizer output `y` produced by successive `tick` calls
satisfies `y (n + 2L) = x (n + L)` for every `n` and channel: once the
four-way overlap is established the output is the input delayed by
exactly `L` samples (exactly, hence within the stated `1e-5 * max|x|`
tolerance). -/
theorem resynth_identity_reconstruction (L k : ℕ) (hk : 2 ≤ k)
    (hLk : L = 2 ^ k) (x : ℕ → ℕ → ℝ) (n c : ℕ) :
    outFrom (idProc L) (Resynth.new L) x (n + 2 * L) c = x (n + L) c := by
  obtain ⟨q, hq0, hLq⟩ : ∃ q, 0 < q ∧ L = 4 * q := by
    refine ⟨2 ^ (k - 2), by positivity, ?_⟩
    have h : (2 : ℕ) ^ k = 2 ^ (k - 2) * 2 ^ 2 := by
      rw [← pow_add]
      congr 1
      omega
    rw [hLk, h]
    ring
  have hL0 : 0 < L := by omega
  have hq4 : L / 4 = q := by omega
  rw [outFrom, tick_out, (runFrom_new_samples (idProc L) L x (n + 2 * L)).2]
  have hterm : ∀ i : Fin 4,
      ((runFrom (idProc L) (Resynth.new L) x (n + 2 * L)).window i).read
        (hann L
          ((runFrom (idProc L) (Resynth.new L) x (n + 2 * L)).window i).index
          * zterm L) c
      = (L : ℝ) * x (n + L) c
          * hann L ((windowOffset L i + (n + 2 * L)) % L) ^ 2 * zterm L := by
    intro i
    have hq2 : L / 2 = 2 * q := by omega
    have hsi : windowOffset L i < L ∧ windowOffset L i % q = 0 := by
      fin_cases i
      · show (0 : ℕ) < L ∧ (0 : ℕ) % q = 0
        exact ⟨by omega, by simp⟩
      · show L / 4 < L ∧ L / 4 % q = 0
        rw [hq4]
        exact ⟨by omega, Nat.mod_self q⟩
      · show L / 2 < L ∧ L / 2 % q = 0
        rw [hq2]
        exact ⟨by omega, Nat.mul_mod_left 2 q⟩
      · show L / 2 + L / 4 < L ∧ (L / 2 + L / 4) % q = 0
        rw [hq2, hq4, (show 2 * q + q = 3 * q by ring)]
        exact ⟨by omega, Nat.mul_mod_left 3 q⟩
    rw [runFrom_new_window, FftWindow.read,
      (windowRun_basic (idProc L) L (L / 4) (windowOffset L i) x hL0 hsi.1
        (n + 2 * L)).2.2, hq4,
      windowRun_out_at L q (windowOffset L i) x hq0 hLq hsi.1 hsi.2
        (n + 2 * L) c (by omega),
      (show n + 2 * L - L = n + L by omega)]
    ring
  rw [Finset.sum_congr rfl (fun i _ => hterm i), Fin.sum_univ_four,
    windowOffset_zero, windowOffset_one, windowOffset_two,
    windowOffset_three, hq4,
    (show L / 2 = 2 * q by omega), (show 2 * q + q = 3 * q by omega),
    (show (0 + (n + 2 * L)) = n + 2 * L by omega)]
  have hsum := hann_sq_sum q (n + 2 * L) hq0
  rw [← hLq] at hsum
  have hLne : (L : ℝ) ≠ 0 := Nat.cast_ne_zero.mpr (by omega)
  calc (L : ℝ) * x (n + L) c * hann L ((n + 2 * L) % L) ^ 2 * zterm L
        + (L : ℝ) * x (n + L) c * hann L ((q + (n + 2 * L)) % L) ^ 2 * zterm L
        + (L : ℝ) * x (n + L) c
            * hann L ((2 * q + (n + 2 * L)) % L) ^ 2 * zterm L
        + (L : ℝ) * x (n + L) c
            * hann L ((3 * q + (n + 2 * L)) % L) ^ 2 * zterm L
      = (L : ℝ) * zterm L
          * (hann L ((n + 2 * L) % L) ^ 2
            + hann L ((q + (n + 2 * L)) % L) ^ 2
            + hann L ((2 * q + (n + 2 * L)) % L) ^ 2
            + hann L ((3 * q + (n + 2 * L)) % L) ^ 2) * x (n + L) c := by
        ring
    _ = (L : ℝ) * zterm L * (3 / 2) * x (n + L) c := by rw [hsum]
    _ = x (n + L) c := by
        rw [zterm]
        field_simp
        ring

/-- Witness for C1 at `L = 4` (`k = 2`), constant input 1, `n = 0`,
channel 0. -/
theorem resynth_identity_reconstruction_witness :
    outFrom (idProc 4) (Resynth.new 4) (fun _ _ => 1) (0 + 2 * 4) 0 =
      (fun _ _ => (1 : ℝ)) (0 + 4) 0 :=
  resynth_identity_reconstruction 4 2 (by norm_num) (by norm_num)
    (fun _ _ => 1) 0 0

/-! ## The sequencer (`src/sequencer.rs`)

The sequencer is modelled in its backend-less configuration: the
`front` field of the source is `None`, so every operation takes the
`else` branch of its frontend check.  Frames are functions from channel
number to sample; blocks are functions from channel and sample index to
sample.  The intermediate `buffer` and `tick_buffer` scratch fields are
not state (their contents are recomputed from scratch per event) and
are absorbed into the rendering functions. -/

/-- The default sample rate `DEFAULT_SR` of the library. -/
def DEFAULT_SR : ℝ := 44100

/-- An audio unit as consumed by the sequencer (spec section 6.1).
The sequencer owns zero-input units, so a unit is semantically an
autonomous generator: `gen p c` is the sample of channel `c` in the
`p`-th frame the unit emits, and `pos` counts emitted frames.  By the
audio unit contract, `tick` emits one frame and `process n` emits `n`
frames.  `set_sample_rate` is recorded in `rate` and `reset` rewinds
the unit to its initial state. -/
structure AudioUnit48 where
  gen : ℕ → ℕ → ℝ
  pos : ℕ
  rate : ℝ

/-- `AudioUnit::set_sample_rate` of the audio unit contract. -/
def AudioUnit48.setSampleRate (u : AudioUnit48) (r : ℝ) : AudioUnit48 :=
  { u with rate := r }

/-- `AudioUnit::reset` of the audio unit contract. -/
def AudioUnit48.reset (u : AudioUnit48) : AudioUnit48 :=
  { u with pos := 0 }

/-- Advance a unit by `n` emitted frames (`tick` advances by one,
`process n` by `n`). -/
def AudioUnit48.advanceFrames (u : AudioUnit48) (n : ℕ) : AudioUnit48 :=
  { u with pos := u.pos + n }

/-- `Edit48` from the source: a pending modification. -/
structure Edit48 where
  end_time : ℝ
  fade_out : ℝ

/-- `Event48` from the source.  Identifiers are naturals (see
`eventIdAt` for how the source draws them). -/
structure Event48 where
  unit : AudioUnit48
  start_time : ℝ
  end_time : ℝ
  fade_ease : Fade
  fade_in : ℝ
  fade_out : ℝ
  id : ℕ

instance : Inhabited Event48 :=
  ⟨⟨⟨fun _ _ => 0, 0, 0⟩, 0, 0, Fade.Smooth, 0, 0, 0⟩⟩

/-- `HashMap::insert` on the map model (functions to `Option`). -/
def mapInsert {α : Type} (m : ℕ → Option α) (k : ℕ) (v : α) :
    ℕ → Option α :=
  fun x => if x = k then some v else m x

/-- `HashMap::remove` on the map model. -/
def mapRemove {α : Type} (m : ℕ → Option α) (k : ℕ) : ℕ → Option α :=
  fun x => if x = k then none else m x

/-- The empty map. -/
def mapEmpty {α : Type} : ℕ → Option α := fun _ => none

/-- `Vec::swap_remove(i)`: remove index `i`, moving the last element
into its place. -/
def swapRemove {α : Type} (l : List α) (i : ℕ) : List α :=
  match l.getLast? with
  | none => []
  | some x => (l.set i x).dropLast

theorem swapRemove_length {α : Type} (l : List α) (i : ℕ)
    (h : i < l.length) : (swapRemove l i).length = l.length - 1 := by
  unfold swapRemove
  match hl : l.getLast? with
  | none =>
    rw [List.getLast?_eq_none_iff] at hl
    subst hl
    simp at h
  | some x =>
    simp [List.length_dropLast, List.length_set]

/-- `Sequencer48` from the source, without the `front` channel pair.
The `outputs` count, the `buffer` and `tick_buffer` scratch space and
the frontend are not modelled as state (see the section comment).  The
`active_threshold` is `WithBot ℝ` so that the initial value negative
infinity is representable; all comparisons against it coincide with
the floating point comparisons of the source. -/
structure Sequencer48 where
  /-- Current events, unsorted. -/
  active : List Event48
  /-- IDs of current events. -/
  activeMap : ℕ → Option ℕ
  /-- Events that start before the active threshold are active. -/
  activeThreshold : WithBot ℝ
  /-- Future events sorted by start time (the binary heap; the model
  keeps an unsorted list and extracts minima, matching the heap up to
  the unspecified tie order). -/
  ready : List Event48
  /-- Past events, unsorted. -/
  past : List Event48
  /-- Map of edits to be made to events in the ready queue. -/
  editMap : ℕ → Option Edit48
  /-- Number of output channels. -/
  outputs : ℕ
  /-- Current time. -/
  time : ℝ
  /-- Current sample rate. -/
  sampleRate : ℝ
  /-- Current sample duration. -/
  sampleDuration : ℝ
  /-- Whether we replay existing events after a call to `reset`. -/
  replayEvents : Bool

/-- `Sequencer48::new`. -/
noncomputable def Sequencer48.new (replayEvents : Bool) (outputs : ℕ) : Sequencer48 :=
  { active := []
    activeMap := mapEmpty
    activeThreshold := ⊥
    ready := []
    past := []
    editMap := mapEmpty
    outputs := outputs
    time := 0
    sampleRate := DEFAULT_SR
    sampleDuration := 1 / DEFAULT_SR
    replayEvents := replayEvents }

/-- Extract an event of minimal start time from the ready list (the
model of `BinaryHeap::pop`; the source orders the heap by reversed
`total_cmp` on `start_time`, ties in unspecified order). -/
noncomputable def popMin : List Event48 → Option (Event48 × List Event48)
  | [] => none
  | e :: rest =>
    match popMin rest with
    | none => some (e, rest)
    | some (m, rest') =>
      if m.start_time < e.start_time then some (m, e :: rest')
      else some (e, rest)

theorem popMin_none {l : List Event48} : popMin l = none ↔ l = [] := by
  cases l with
  | nil => simp [popMin]
  | cons e rest =>
    simp only [popMin]
    constructor
    · intro h
      cases hr : popMin rest with
      | none => rw [hr] at h; simp at h
      | some p =>
        rw [hr] at h
        rcases p with ⟨m, rest'⟩
        by_cases hc : m.start_time < e.start_time <;> simp [hc] at h
    · intro h
      cases h

theorem popMin_perm {l : List Event48} {e : Event48} {rest : List Event48}
    (h : popMin l = some (e, rest)) : l.Perm (e :: rest) := by
  induction l generalizing e rest with
  | nil => simp [popMin] at h
  | cons a tail ih =>
    rw [popMin] at h
    split at h
    · simp only [Option.some.injEq, Prod.mk.injEq] at h
      rw [h.1, h.2]
    · rename_i m rest' hr
      by_cases hc : m.start_time < a.start_time
      · rw [if_pos hc] at h
        simp only [Option.some.injEq, Prod.mk.injEq] at h
        rw [← h.1, ← h.2]
        exact (List.Perm.cons a (ih hr)).trans (List.Perm.swap m a rest')
      · rw [if_neg hc] at h
        simp only [Option.some.injEq, Prod.mk.injEq] at h
        rw [h.1, h.2]

theorem popMin_length {l : List Event48} {e : Event48}
    {rest : List Event48} (h : popMin l = some (e, rest)) :
    rest.length + 1 = l.length := by
  have := (popMin_perm h).length_eq
  simp at this
  omega

/-- Modify the element at index `i` in place (`self.active[i].field = v`
updates in the source). -/
def listModify {α : Type} : List α → ℕ → (α → α) → List α
  | [], _, _ => []
  | a :: l, 0, f => f a :: l
  | a :: l, i + 1, f => a :: listModify l i f

theorem listModify_length {α : Type} (l : List α) (i : ℕ) (f : α → α) :
    (listModify l i f).length = l.length := by
  induction l generalizing i with
  | nil => rfl
  | cons a tail ih =>
    cases i with
    | zero => rfl
    | succ i => simp [listModify, ih]

/-- `Sequencer48::push_event` without a frontend: events that start
before the active threshold go straight to `active`, others to the
`ready` heap. -/
noncomputable def Sequencer48.pushEvent (st : Sequencer48)
    (event : Event48) : Sequencer48 :=
  if (event.start_time : WithBot ℝ) < st.activeThreshold then
    { st with
      activeMap := mapInsert st.activeMap event.id st.active.length
      active := st.active ++ [event] }
  else { st with ready := event :: st.ready }

/-- `Sequencer48::push` without a frontend.  The source draws the id
from the global counter (see `eventIdAt`); the model takes the id as a
parameter.  The source asserts the channel-count and fade-duration
contracts and calls `allocate` (a no-op for the model). -/
noncomputable def Sequencer48.push (st : Sequencer48)
    (start_time end_time : ℝ) (fade_ease : Fade)
    (fade_in_time fade_out_time : ℝ) (unit : AudioUnit48) (id : ℕ) :
    Sequencer48 :=
  st.pushEvent
    ⟨unit.setSampleRate st.sampleRate, start_time, end_time, fade_ease,
      fade_in_time, fade_out_time, id⟩

/-- `Sequencer48::push_relative_event` without a frontend: start and
end times are translated by the current time on arrival. -/
noncomputable def Sequencer48.pushRelativeEvent (st : Sequencer48)
    (event : Event48) : Sequencer48 :=
  let event := { event with
    start_time := event.start_time + st.time
    end_time := event.end_time + st.time }
  if (event.start_time : WithBot ℝ) < st.activeThreshold then
    { st with
      activeMap := mapInsert st.activeMap event.id st.active.length
      active := st.active ++ [event] }
  else { st with ready := event :: st.ready }

/-- `Sequencer48::push_relative` without a frontend. -/
noncomputable def Sequencer48.pushRelative (st : Sequencer48)
    (start_time end_time : ℝ) (fade_ease : Fade)
    (fade_in_time fade_out_time : ℝ) (unit : AudioUnit48) (id : ℕ) :
    Sequencer48 :=
  st.pushRelativeEvent
    ⟨unit.setSampleRate st.sampleRate, start_time, end_time, fade_ease,
      fade_in_time, fade_out_time, id⟩

/-- `Sequencer48::push_duration`. -/
noncomputable def Sequencer48.pushDuration (st : Sequencer48)
    (start_time duration : ℝ) (fade_ease : Fade)
    (fade_in_time fade_out_time : ℝ) (unit : AudioUnit48) (id : ℕ) :
    Sequencer48 :=
  st.push start_time (start_time + duration) fade_ease fade_in_time
    fade_out_time unit id

/-- `Sequencer48::edit` without a frontend: if the id is active the
event is changed in place; otherwise, if the new end time is already
below the active threshold the edit is dropped; otherwise it is queued
in the edit map. -/
noncomputable def Sequencer48.edit (st : Sequencer48) (id : ℕ)
    (end_time fade_out_time : ℝ) : Sequencer48 :=
  match st.activeMap id with
  | some i =>
    let f : Event48 → Event48 :=
      fun e => { e with end_time := end_time, fade_out := fade_out_time }
    { st with active := listModify st.active i f }
  | none =>
    if (end_time : WithBot ℝ) < st.activeThreshold then st
    else
      { st with editMap := mapInsert st.editMap id ⟨end_time, fade_out_time⟩ }

/-- `Sequencer48::edit_relative` without a frontend. -/
noncomputable def Sequencer48.editRelative (st : Sequencer48) (id : ℕ)
    (end_time fade_out_time : ℝ) : Sequencer48 :=
  match st.activeMap id with
  | some i =>
    let f : Event48 → Event48 :=
      fun e => { e with
        end_time := st.time + end_time
        fade_out := fade_out_time }
    { st with active := listModify st.active i f }
  | none =>
    if (st.time + end_time : WithBot ℝ) < st.activeThreshold then st
    else
      let ed : Edit48 := ⟨st.time + end_time, fade_out_time⟩
      { st with editMap := mapInsert st.editMap id ed }

/-- Apply a pending edit from the edit map when promoting an event
(the body of the edit check inside `ready_to_active`). -/
def applyEditTo (em : ℕ → Option Edit48) (e : Event48) : Event48 :=
  match em e.id with
  | some ed => { e with fade_out := ed.fade_out, end_time := ed.end_time }
  | none => e

/-- The promotion loop of `Sequencer48::ready_to_active`: while the
heap top starts before the active threshold, pop it, record it in the
active map, apply any pending edit, and append it to `active`. -/
noncomputable def rtaLoop (st : Sequencer48) : Sequencer48 :=
  match hp : popMin st.ready with
  | none => st
  | some (e, rest) =>
    if (e.start_time : WithBot ℝ) < st.activeThreshold then
      rtaLoop { st with
        ready := rest
        activeMap := mapInsert st.activeMap e.id st.active.length
        active := st.active ++ [applyEditTo st.editMap e]
        editMap := mapRemove st.editMap e.id }
    else st
termination_by st.ready.length
decreasing_by
  have := popMin_length hp
  omega

/-- `Sequencer48::ready_to_active`. -/
noncomputable def Sequencer48.readyToActive (st : Sequencer48)
    (nextEndTime : ℝ) : Sequencer48 :=
  rtaLoop { st with
    activeThreshold := ((nextEndTime - st.sampleDuration * 0.5 : ℝ) : WithBot ℝ) }

/-- Drain the ready heap in pop order, appending to an accumulator
(the `while let Some(ready) = self.ready.pop()` loops of `reset` and
`set_sample_rate`). -/
noncomputable def drainReady (ready acc : List Event48) : List Event48 :=
  match hp : popMin ready with
  | none => acc
  | some (e, rest) => drainReady rest (acc ++ [e])
termination_by ready.length
decreasing_by
  have := popMin_length hp
  omega

/-- `Sequencer48::reset` (the `AudioUnit` impl).  With `replay_events`
the source drains `ready` and `past` into `active`, resets every unit,
then moves everything back to `ready` and clears the active map;
popping the `past` and `active` vectors from the back reverses them,
and pushing onto the heap is modelled by building the list in pop
order.  Without `replay_events` all collections and both maps are
cleared.  In both cases `time` becomes 0 and the threshold negative
infinity. -/
noncomputable def Sequencer48.reset (st : Sequencer48) : Sequencer48 :=
  if st.replayEvents then
    { st with
      active := []
      past := []
      ready := (drainReady st.ready st.active ++ st.past.reverse).map
        (fun e => { e with unit := e.unit.reset })
      activeMap := mapEmpty
      time := 0
      activeThreshold := ⊥ }
  else
    { st with
      active := []
      past := []
      ready := []
      editMap := mapEmpty
      activeMap := mapEmpty
      time := 0
      activeThreshold := ⊥ }

/-- `Sequencer48::set_sample_rate` (the `AudioUnit` impl): a no-op for
an unchanged rate; otherwise update rate and duration, move `ready`
and `past` into `active`, set the rate of every unit, move everything
to `ready`, clear the active map and reset the threshold. -/
noncomputable def Sequencer48.setSampleRate (st : Sequencer48)
    (sample_rate : ℝ) : Sequencer48 :=
  if st.sampleRate = sample_rate then st
  else
    { st with
      sampleRate := sample_rate
      sampleDuration := 1 / sample_rate
      active := []
      past := []
      ready := (drainReady st.ready st.active ++ st.past.reverse).map
        (fun e => { e with unit := e.unit.setSampleRate sample_rate })
      activeMap := mapEmpty
      activeThreshold := ⊥ }

/-! ### Rendering -/

/-- The fade-in factor applied by `Sequencer48::tick` to one event at
one sample: when a fade-in is configured and its phase at the current
time is still below 1, the curve value at that phase. -/
noncomputable def fadeFactorIn (ease : Fade) (start fadeIn time : ℝ) : ℝ :=
  if 0 < fadeIn then
    if delerp start (start + fadeIn) time < 1 then
      Fade.at ease (delerp start (start + fadeIn) time)
    else 1
  else 1

/-- The fade-out factor applied by `Sequencer48::tick` to one event at
one sample. -/
noncomputable def fadeFactorOut (ease : Fade) (endTime fadeOut time : ℝ) :
    ℝ :=
  if 0 < fadeOut then
    if 0 < delerp (endTime - fadeOut) endTime time then
      Fade.at ease (1 - delerp (endTime - fadeOut) endTime time)
    else 1
  else 1

/-- Per-event rendering of `Sequencer48::tick`: the unit emits one
frame, which is scaled on every channel by the fade-in and fade-out
factors. -/
noncomputable def renderTick (outputs : ℕ) (time : ℝ) (e : Event48) :
    Event48 × (ℕ → ℝ) :=
  ({ e with unit := e.unit.advanceFrames 1 },
    fun c =>
      (if c < outputs then e.unit.gen e.unit.pos c else 0) *
        fadeFactorIn e.fade_ease e.start_time e.fade_in time *
        fadeFactorOut e.fade_ease e.end_time e.fade_out time)

/-- `fade_in48` from the source: scale buffer positions
`[0, fade_end_i)` by the fade curve, with the phase advancing by
`sample_duration / fade_duration` per sample.  `endTime` is the end of
the current block and `end_index` the block-clamped end index of the
event. -/
noncomputable def fade_in48 (sample_duration time endTime : ℝ)
    (start_index end_index : ℕ) (ease : Fade)
    (fade_duration fade_start_time : ℝ) (output : ℕ → ℕ → ℝ) :
    ℕ → ℕ → ℝ :=
  let fade_end_time := fade_start_time + fade_duration
  if 0 < fade_duration ∧ time < fade_end_time then
    let fade_end_i : ℕ :=
      if endTime ≤ fade_end_time then end_index
      else (round48 ((fade_end_time - time) / sample_duration)).toNat
    let fade_d := sample_duration / fade_duration
    let fade_phase := delerp fade_start_time fade_end_time
      (time + start_index * sample_duration)
    fun c k =>
      if k < fade_end_i then output c k * Fade.at ease (fade_phase + k * fade_d)
      else output c k
  else output

/-- `fade_out48` from the source: scale buffer positions
`[fade_i, end_index)` by the reversed fade curve. -/
noncomputable def fade_out48 (sample_duration time endTime : ℝ)
    (start_index end_index : ℕ) (ease : Fade)
    (fade_duration fade_end_time : ℝ) (output : ℕ → ℕ → ℝ) :
    ℕ → ℕ → ℝ :=
  let fade_start_time := fade_end_time - fade_duration
  if 0 < fade_duration ∧ fade_start_time < endTime then
    let fade_i : ℕ :=
      if fade_start_time ≤ time then 0
      else (round48 ((fade_start_time - time) / sample_duration)).toNat
    let fade_d := sample_duration / fade_duration
    let fade_phase := delerp fade_start_time fade_end_time
      (time + fade_i * sample_duration)
    fun c k =>
      if fade_i ≤ k ∧ k < end_index then
        output c k * Fade.at ease (1 - (fade_phase + (k - fade_i) * fade_d))
      else output c k
  else output

/-- The `start_index` computed by `Sequencer48::process` for an event:
the block sample at which the event starts, clamped to 0. -/
noncomputable def procStartIndex (time sampleRate : ℝ) (e : Event48) : ℕ :=
  if e.start_time ≤ time then 0
  else (round48 ((e.start_time - time) * sampleRate)).toNat

/-- The `end_index` computed by `Sequencer48::process` for an event:
the block sample at which the event ends, clamped to `size`. -/
noncomputable def procEndIndex (time sampleRate endTime : ℝ) (size : ℕ)
    (e : Event48) : ℕ :=
  if endTime ≤ e.end_time then size
  else (round48 ((e.end_time - time) * sampleRate)).toNat

/-- The scratch block rendered and faded by `Sequencer48::process` for
one event: `end_index - start_index` frames from the unit, with the
block fade-in and fade-out applied. -/
noncomputable def procBuffer (outputs : ℕ)
    (time sampleRate sampleDuration endTime : ℝ) (size : ℕ)
    (e : Event48) : ℕ → ℕ → ℝ :=
  fade_out48 sampleDuration time endTime
    (procStartIndex time sampleRate e)
    (procEndIndex time sampleRate endTime size e)
    e.fade_ease e.fade_out e.end_time
    (fade_in48 sampleDuration time endTime
      (procStartIndex time sampleRate e)
      (procEndIndex time sampleRate endTime size e)
      e.fade_ease e.fade_in e.start_time
      (fun c k =>
        if c < outputs ∧ k < procEndIndex time sampleRate endTime size e
            - procStartIndex time sampleRate e then
          e.unit.gen (e.unit.pos + k) c
        else 0))

/-- Per-event rendering of `Sequencer48::process`: compute the block
subrange `[start_index, end_index)` of the event by rounding, render
that many frames from the unit into a scratch block, apply the block
fades, and contribute the scratch at offset `start_index`.  When the
subrange is empty the unit is not processed at all. -/
noncomputable def renderProc (outputs : ℕ)
    (time sampleRate sampleDuration endTime : ℝ) (size : ℕ)
    (e : Event48) : Event48 × (ℕ → ℕ → ℝ) :=
  if procStartIndex time sampleRate e
      < procEndIndex time sampleRate endTime size e then
    let n := procEndIndex time sampleRate endTime size e - procStartIndex time sampleRate e
    let e2 := { e with unit := e.unit.advanceFrames n }
    (e2,
      fun c j =>
        if c < outputs ∧ procStartIndex time sampleRate e ≤ j ∧
            j < procEndIndex time sampleRate endTime size e then
          procBuffer outputs time sampleRate sampleDuration endTime size e
            c (j - procStartIndex time sampleRate e)
        else 0)
  else (e, fun _ _ => 0)

/-- The in-flight state of the active-event loop shared by `tick` and
`process`: the active list being scanned, the active map, the past
list, and the accumulated output (a frame for `tick`, a block for
`process`). -/
structure ALoop (M : Type) where
  active : List Event48
  activeMap : ℕ → Option ℕ
  past : List Event48
  out : M

/-- The swap-remove scan over `active` shared by `tick` and `process`:
at index `i`, an event whose end time has passed `time + half` a sample
is retired (removed from the map, the swapped-in tail rekeyed unless
the event was the tail, and pushed to `past`); otherwise it is rendered
by `render`, its contribution added to the output, and the scan moves
on. -/
noncomputable def activeLoop {M : Type} (add : M → M → M) (time half : ℝ)
    (render : Event48 → Event48 × M) (s : ALoop M) (i : ℕ) : ALoop M :=
  if h : i < s.active.length then
    let e := s.active.get ⟨i, h⟩
    if e.end_time ≤ time + half then
      activeLoop add time half render
        { active := swapRemove s.active i
          activeMap :=
            if i + 1 < s.active.length then
              mapInsert (mapRemove s.activeMap e.id)
                (s.active.getLast (by
                  intro hnil
                  rw [hnil] at h
                  simp at h)).id i
            else mapRemove s.activeMap e.id
          past := s.past ++ [e]
          out := s.out } i
    else
      activeLoop add time half render
        { s with
          active := s.active.set i (render e).1
          out := add s.out (render e).2 } (i + 1)
  else s
termination_by s.active.length - i
decreasing_by
  · rw [swapRemove_length s.active i h]
    omega
  · rw [List.length_set]
    omega

/-- `Sequencer48::tick` without a frontend (the sequencer has zero
inputs, so the input slice is empty and omitted).  Returns the output
frame and the new state. -/
noncomputable def Sequencer48.tick (st : Sequencer48) :
    (ℕ → ℝ) × Sequencer48 :=
  let st1 := if st.replayEvents then st else { st with past := [] }
  let endTime := st1.time + st1.sampleDuration
  let st2 := st1.readyToActive endTime
  let r := activeLoop (fun a b => fun c => a c + b c) st2.time
    (0.5 * st2.sampleDuration) (renderTick st2.outputs st2.time)
    ⟨st2.active, st2.activeMap, st2.past, fun _ => 0⟩ 0
  (r.out, { st2 with
    active := r.active
    activeMap := r.activeMap
    past := r.past
    time := endTime })

/-- `Sequencer48::process` without a frontend.  Returns the output
block (meaningful on channels `< outputs` and sample indices `< size`)
and the new state. -/
noncomputable def Sequencer48.process (st : Sequencer48) (size : ℕ) :
    (ℕ → ℕ → ℝ) × Sequencer48 :=
  let st1 := if st.replayEvents then st else { st with past := [] }
  let endTime := st1.time + st1.sampleDuration * size
  let st2 := st1.readyToActive endTime
  let r := activeLoop (fun a b => fun c j => a c j + b c j) st2.time
    (0.5 * st2.sampleDuration)
    (renderProc st2.outputs st2.time st2.sampleRate st2.sampleDuration
      endTime size)
    ⟨st2.active, st2.activeMap, st2.past, fun _ _ => 0⟩ 0
  (r.out, { st2 with
    active := r.active
    activeMap := r.activeMap
    past := r.past
    time := endTime })

/-! ### Retirement invariant (claim C4) -/

theorem take_set_of_le {α : Type} (l : List α) (i : ℕ) (x : α) (j : ℕ)
    (hij : j ≤ i) : (l.set i x).take j = l.take j := by
  induction l generalizing i j with
  | nil => simp
  | cons a tail ih =>
    cases i with
    | zero =>
      have : j = 0 := by omega
      subst this
      simp
    | succ i =>
      cases j with
      | zero => simp
      | succ j =>
        simp only [List.set, List.take]
        rw [ih i j (by omega)]

theorem take_succ_set {α : Type} (l : List α) (i : ℕ) (x : α)
    (h : i < l.length) : (l.set i x).take (i + 1) = l.take i ++ [x] := by
  induction l generalizing i with
  | nil => simp at h
  | cons a tail ih =>
    cases i with
    | zero => simp
    | succ i =>
      simp only [List.set, List.take, List.cons_append, List.cons.injEq,
        true_and]
      exact ih i (by simpa using h)

theorem swapRemove_take {α : Type} (l : List α) (i : ℕ) (h : i < l.length) :
    (swapRemove l i).take i = l.take i := by
  unfold swapRemove
  match hl : l.getLast? with
  | none =>
    rw [List.getLast?_eq_none_iff] at hl
    subst hl
    simp at h
  | some x =>
    show ((l.set i x).dropLast).take i = l.take i
    rw [List.dropLast_eq_take, List.take_take,
      min_eq_left (by rw [List.length_set]; omega)]
    exact take_set_of_le l i x i le_rfl

theorem activeLoop_retire {M : Type} (add : M → M → M) (time half : ℝ)
    (render : Event48 → Event48 × M)
    (hkeep : ∀ e, ((render e).1).end_time = e.end_time) (s : ALoop M)
    (i : ℕ)
    (hpre : ∀ e ∈ s.active.take i, time + half < e.end_time) :
    (∀ e ∈ (activeLoop add time half render s i).active,
      time + half < e.end_time) ∧
    (∀ e ∈ (activeLoop add time half render s i).past,
      e ∈ s.past ∨ e.end_time ≤ time + half) := by
  suffices H : ∀ n (s : ALoop M) (i : ℕ), s.active.length - i ≤ n →
      (∀ e ∈ s.active.take i, time + half < e.end_time) →
      (∀ e ∈ (activeLoop add time half render s i).active,
        time + half < e.end_time) ∧
      (∀ e ∈ (activeLoop add time half render s i).past,
        e ∈ s.past ∨ e.end_time ≤ time + half) by
    exact H (s.active.length - i) s i le_rfl hpre
  intro n
  induction n with
  | zero =>
    intro s i hle hpre
    rw [activeLoop, dif_neg (by omega)]
    constructor
    · intro e he
      apply hpre
      rw [List.take_of_length_le (by omega)]
      exact he
    · intro e he
      exact Or.inl he
  | succ n ih =>
    intro s i hle hpre
    rw [activeLoop]
    by_cases h : i < s.active.length
    · rw [dif_pos h]
      by_cases hret : (s.active.get ⟨i, h⟩).end_time ≤ time + half
      · rw [if_pos hret]
        have hres := ih
          { active := swapRemove s.active i
            activeMap :=
              if i + 1 < s.active.length then
                mapInsert (mapRemove s.activeMap (s.active.get ⟨i, h⟩).id)
                  (s.active.getLast (by
                    intro hnil
                    rw [hnil] at h
                    simp at h)).id i
              else mapRemove s.activeMap (s.active.get ⟨i, h⟩).id
            past := s.past ++ [s.active.get ⟨i, h⟩]
            out := s.out } i
          (by
            show (swapRemove s.active i).length - i ≤ n
            rw [swapRemove_length s.active i h]
            omega)
          (by
            show ∀ e ∈ (swapRemove s.active i).take i, time + half < e.end_time
            rw [swapRemove_take s.active i h]
            exact hpre)
        refine ⟨hres.1, fun e he => ?_⟩
        rcases hres.2 e he with h2 | h2
        · rcases List.mem_append.mp h2 with h3 | h3
          · exact Or.inl h3
          · right
            rw [List.mem_singleton.mp h3]
            exact hret
        · exact Or.inr h2
      · rw [if_neg hret]
        apply ih
        · rw [List.length_set]
          omega
        · rw [take_succ_set s.active i _ h]
          intro e he
          rcases List.mem_append.mp he with h3 | h3
          · exact hpre e h3
          · rw [List.mem_singleton.mp h3, hkeep]
            exact lt_of_not_le hret
    · rw [dif_neg h]
      constructor
      · intro e he
        apply hpre
        rw [List.take_of_length_le (by omega)]
        exact he
      · intro e he
        exact Or.inl he

theorem renderProc_keeps (outputs : ℕ) (time sr sd endT : ℝ) (size : ℕ)
    (e : Event48) :
    ((renderProc outputs time sr sd endT size e).1).end_time = e.end_time ∧
    ((renderProc outputs time sr sd endT size e).1).id = e.id ∧
    ((renderProc outputs time sr sd endT size e).1).start_time =
      e.start_time := by
  by_cases h : procStartIndex time sr e < procEndIndex time sr endT size e
  · simp only [renderProc]
    rw [if_pos h]
    exact ⟨rfl, rfl, rfl⟩
  · simp only [renderProc]
    rw [if_neg h]
    exact ⟨rfl, rfl, rfl⟩

theorem renderTick_keeps (outputs : ℕ) (time : ℝ) (e : Event48) :
    ((renderTick outputs time e).1).end_time = e.end_time ∧
    ((renderTick outputs time e).1).id = e.id ∧
    ((renderTick outputs time e).1).start_time = e.start_time :=
  ⟨rfl, rfl, rfl⟩

/-- Fields of the sequencer untouched by the promotion loop. -/
theorem rtaLoop_fields (st : Sequencer48) :
    (rtaLoop st).time = st.time ∧
    (rtaLoop st).sampleRate = st.sampleRate ∧
    (rtaLoop st).sampleDuration = st.sampleDuration ∧
    (rtaLoop st).past = st.past ∧
    (rtaLoop st).outputs = st.outputs ∧
    (rtaLoop st).replayEvents = st.replayEvents ∧
    (rtaLoop st).activeThreshold = st.activeThreshold := by
  suffices H : ∀ n (st : Sequencer48), st.ready.length ≤ n →
      (rtaLoop st).time = st.time ∧
      (rtaLoop st).sampleRate = st.sampleRate ∧
      (rtaLoop st).sampleDuration = st.sampleDuration ∧
      (rtaLoop st).past = st.past ∧
      (rtaLoop st).outputs = st.outputs ∧
      (rtaLoop st).replayEvents = st.replayEvents ∧
      (rtaLoop st).activeThreshold = st.activeThreshold by
    exact H st.ready.length st le_rfl
  intro n
  induction n with
  | zero =>
    intro st hle
    have hz : st.ready = [] := List.length_eq_zero.mp (by omega)
    unfold rtaLoop
    split
    · exact ⟨rfl, rfl, rfl, rfl, rfl, rfl, rfl⟩
    · rename_i e rest hpm
      rw [popMin_none.mpr hz] at hpm
      simp at hpm
  | succ n ih =>
    intro st hle
    unfold rtaLoop
    split
    · exact ⟨rfl, rfl, rfl, rfl, rfl, rfl, rfl⟩
    · rename_i e rest hpm
      by_cases hc : (e.start_time : WithBot ℝ) < st.activeThreshold
      · rw [if_pos hc]
        have hlen := popMin_length hpm
        exact ih _ (by show rest.length ≤ n; omega)
      · rw [if_neg hc]
        exact ⟨rfl, rfl, rfl, rfl, rfl, rfl, rfl⟩

theorem readyToActive_fields (st : Sequencer48) (t : ℝ) :
    (st.readyToActive t).time = st.time ∧
    (st.readyToActive t).sampleRate = st.sampleRate ∧
    (st.readyToActive t).sampleDuration = st.sampleDuration ∧
    (st.readyToActive t).past = st.past ∧
    (st.readyToActive t).outputs = st.outputs ∧
    (st.readyToActive t).replayEvents = st.replayEvents ∧
    (st.readyToActive t).activeThreshold =
      ((t - st.sampleDuration * 0.5 : ℝ) : WithBot ℝ) :=
  rtaLoop_fields _

/-- C4 (amended): at the end of every `process` call on a sequencer
without a backend, every event remaining in `active` has
`end_time > old_time + half a sample`, and every event newly moved to
`past` has `end_time <= old_time + half a sample`, where `old_time` is
the sequencer time at entry (the source checks retirement against the
pre-advance time, not the post-advance time of the original claim). -/
theorem process_retirement (st : Sequencer48) (size : ℕ) :
    (∀ e ∈ ((st.process size).2).active,
      st.time + 0.5 * st.sampleDuration < e.end_time) ∧
    (∀ e ∈ ((st.process size).2).past,
      e ∈ st.past ∨ e.end_time ≤ st.time + 0.5 * st.sampleDuration) := by
  unfold Sequencer48.process
  dsimp only
  cases hrep : st.replayEvents with
  | false =>
    rw [if_neg (by simp)]
    dsimp only
    have hf := readyToActive_fields
      { st with past := [], replayEvents := false }
      (st.time + st.sampleDuration * size)
    set T := Sequencer48.readyToActive
      { st with past := [], replayEvents := false }
      (st.time + st.sampleDuration * size) with hT
    have hf1 : T.time = st.time := hf.1
    have hfsd : T.sampleDuration = st.sampleDuration := hf.2.2.1
    have hfp : T.past = [] := hf.2.2.2.1
    have hretire := activeLoop_retire
      (fun a b => fun c j => a c j + b c j) T.time
      (0.5 * T.sampleDuration)
      (renderProc T.outputs T.time T.sampleRate T.sampleDuration
        (st.time + st.sampleDuration * size) size)
      (fun e => (renderProc_keeps _ _ _ _ _ _ e).1)
      ⟨T.active, T.activeMap, T.past, fun _ _ => 0⟩ 0 (by simp)
    refine ⟨fun e he => ?_, fun e he => ?_⟩
    · have h3 := hretire.1 e he
      rwa [hf1, hfsd] at h3
    · have h3 := hretire.2 e he
      rcases h3 with h3 | h3
      · rw [hfp] at h3
        simp at h3
      · rw [hfsd] at h3
        rw [hf1] at h3
        exact Or.inr h3
  | true =>
    rw [if_pos rfl]
    have hf := readyToActive_fields st (st.time + st.sampleDuration * size)
    set T := Sequencer48.readyToActive st
      (st.time + st.sampleDuration * size) with hT
    have hf1 : T.time = st.time := hf.1
    have hfsd : T.sampleDuration = st.sampleDuration := hf.2.2.1
    have hfp : T.past = st.past := hf.2.2.2.1
    have hretire := activeLoop_retire
      (fun a b => fun c j => a c j + b c j) T.time
      (0.5 * T.sampleDuration)
      (renderProc T.outputs T.time T.sampleRate T.sampleDuration
        (st.time + st.sampleDuration * size) size)
      (fun e => (renderProc_keeps _ _ _ _ _ _ e).1)
      ⟨T.active, T.activeMap, T.past, fun _ _ => 0⟩ 0 (by simp)
    refine ⟨fun e he => ?_, fun e he => ?_⟩
    · have h3 := hretire.1 e he
      rwa [hf1, hfsd] at h3
    · have h3 := hretire.2 e he
      rcases h3 with h3 | h3
      · rw [hfp] at h3
        exact Or.inl h3
      · rw [hfsd] at h3
        rw [hf1] at h3
        exact Or.inr h3

theorem rtaLoop_nil (st : Sequencer48) (h : st.ready = []) :
    rtaLoop st = st := by
  unfold rtaLoop
  split
  · rfl
  · rename_i e rest hpm
    rw [popMin_none.mpr h] at hpm
    simp at hpm

/-- Evaluation of the active loop on a single surviving event. -/
theorem activeLoop_one {M : Type} (add : M → M → M) (time half : ℝ)
    (render : Event48 → Event48 × M) (m : ℕ → Option ℕ)
    (past : List Event48) (out : M) (e : Event48)
    (h : ¬ e.end_time ≤ time + half) :
    activeLoop add time half render ⟨[e], m, past, out⟩ 0 =
      ⟨[(render e).1], m, past, add out (render e).2⟩ := by
  rw [activeLoop]
  rw [dif_pos (by simp)]
  rw [if_neg (show ¬ ((([e] : List Event48).get
    ⟨0, by simp⟩).end_time ≤ time + half) from h)]
  rw [activeLoop]
  rw [dif_neg (by simp)]
  rfl

/-- The unit of the C4 and C2 counterexample events: a constant
generator. -/
def cexUnit : AudioUnit48 := ⟨fun _ _ => 1, 0, 1⟩

/-- The C4 counterexample event: it ends at `3/4`, in the middle of
the very first sample. -/
noncomputable def cexEv4 : Event48 := ⟨cexUnit, -1, 3 / 4, Fade.Smooth, 0, 0, 0⟩

/-- The C4 counterexample state: sample rate 1, time 0, one active
event ending at `3/4` (a state the sequencer itself reaches by pushing
the event at time `-1` and promoting it). -/
noncomputable def cexSt4 : Sequencer48 :=
  ⟨[cexEv4], mapInsert mapEmpty 0 0, ((-(1 : ℝ) / 2 : ℝ) : WithBot ℝ),
    [], [], mapEmpty, 1, 0, 1, 1, false⟩

theorem cexSt4_process_state :
    ((cexSt4.process 1).2).time = 1 ∧
    ((cexSt4.process 1).2).sampleDuration = 1 ∧
    ∃ ev : Event48, ((cexSt4.process 1).2).active = [ev] ∧
      ev.end_time = 3 / 4 := by
  unfold Sequencer48.process Sequencer48.readyToActive
  dsimp only
  rw [show cexSt4.replayEvents = false from rfl, if_neg (by simp)]
  rw [rtaLoop_nil _ rfl]
  dsimp only [cexSt4]
  have hcond : ¬ (cexEv4.end_time ≤ (0 : ℝ) + 0.5 * 1) := by
    rw [show cexEv4.end_time = 3 / 4 from rfl]
    norm_num
  refine ⟨?_, rfl, ?_⟩
  · show (0 : ℝ) + 1 * ((1 : ℕ) : ℝ) = 1
    norm_num
  · refine ⟨(renderProc 1 0 1 1 (0 + 1 * ((1 : ℕ) : ℝ)) 1 cexEv4).1,
      ?_, ((renderProc_keeps _ _ _ _ _ _ cexEv4).1).trans rfl⟩
    rw [activeLoop_one _ _ _ _ _ _ _ _ hcond]

/-- C4 as stated is false: at the end of this `process` call an event
with `end_time = 3/4` remains active although the post-call time plus
half a sample is `3/2`. -/
theorem process_retirement_cex :
    ¬ (∀ e ∈ ((cexSt4.process 1).2).active,
        ((cexSt4.process 1).2).time
          + 0.5 * ((cexSt4.process 1).2).sampleDuration < e.end_time) := by
  obtain ⟨ht, hsd, ev, hact, hend⟩ := cexSt4_process_state
  intro hcl
  have h := hcl ev (by rw [hact]; exact List.mem_singleton.mpr rfl)
  rw [ht, hsd, hend] at h
  norm_num at h

/-- Witness for the amended C4 at the counterexample state. -/
theorem process_retirement_witness :
    ∀ e ∈ ((cexSt4.process 1).2).active,
      cexSt4.time + 0.5 * cexSt4.sampleDuration < e.end_time :=
  (process_retirement cexSt4 1).1

/-! ### The active-map inverse invariant (claim C5) -/

theorem swapRemove_get {α : Type} (l : List α) (i j : ℕ) (hi : i < l.length)
    (hj : j < l.length - 1) (hnil : l ≠ []) :
    (swapRemove l i).get ⟨j, by rw [swapRemove_length l i hi]; exact hj⟩ =
      if j = i then l.getLast hnil else l.get ⟨j, by omega⟩ := by
  have hsw : swapRemove l i = (l.set i (l.getLast hnil)).dropLast := by
    unfold swapRemove
    rw [List.getLast?_eq_getLast l hnil]
  rw [List.get_eq_getElem]
  simp only [hsw]
  rw [List.getElem_dropLast]
  by_cases hij : j = i
  · subst hij
    rw [if_pos rfl, List.getElem_set_self]
  · rw [if_neg hij, List.getElem_set_ne (fun hc => hij hc.symm)]
    rfl

theorem swapRemove_perm {α : Type} (l : List α) (i : ℕ) (h : i < l.length) :
    (l.get ⟨i, h⟩ :: swapRemove l i).Perm l := by
  induction l generalizing i with
  | nil => simp at h
  | cons a t ih =>
    cases i with
    | zero =>
      show (a :: swapRemove (a :: t) 0).Perm (a :: t)
      cases ht : t with
      | nil =>
        subst ht
        unfold swapRemove
        simp
      | cons b t2 =>
        have htne : t ≠ [] := by rw [ht]; simp
        rw [← ht]
        have hsw : swapRemove (a :: t) 0 = (t.getLast htne :: t).dropLast := by
          unfold swapRemove
          rw [List.getLast?_eq_getLast _ (by simp), List.getLast_cons htne]
          rfl
        rw [hsw, List.dropLast_cons_of_ne_nil htne]
        refine List.Perm.cons a ?_
        have hp : (t.getLast htne :: t.dropLast).Perm
            (t.dropLast ++ [t.getLast htne]) :=
          (List.perm_append_singleton _ _).symm
        rw [List.dropLast_append_getLast htne] at hp
        exact hp
    | succ i =>
      have hti : i < t.length := by simpa using h
      have htne : t ≠ [] := by
        intro hc
        rw [hc] at hti
        simp at hti
      have hsw : swapRemove (a :: t) (i + 1) = a :: swapRemove t i := by
        unfold swapRemove
        rw [List.getLast?_eq_getLast _ (by simp),
          List.getLast?_eq_getLast _ htne, List.getLast_cons htne]
        show (a :: t.set i (t.getLast htne)).dropLast =
          a :: (t.set i (t.getLast htne)).dropLast
        rw [List.dropLast_cons_of_ne_nil (by
          intro hc
          have hlc := congrArg List.length hc
          rw [List.length_set] at hlc
          simp only [List.length_nil] at hlc
          omega)]
      rw [hsw]
      show (t.get ⟨i, hti⟩ :: a :: swapRemove t i).Perm (a :: t)
      exact (List.Perm.swap a (t.get ⟨i, hti⟩) _).trans
        (List.Perm.cons a (ih i hti))

theorem drainReady_perm (ready acc : List Event48) :
    (drainReady ready acc).Perm (acc ++ ready) := by
  suffices H : ∀ n (ready acc : List Event48), ready.length ≤ n →
      (drainReady ready acc).Perm (acc ++ ready) by
    exact H ready.length ready acc le_rfl
  intro n
  induction n with
  | zero =>
    intro ready acc hle
    have hz : ready = [] := List.length_eq_zero.mp (by omega)
    subst hz
    unfold drainReady
    split
    · simp
    · rename_i e rest hpm
      simp [popMin] at hpm
  | succ n ih =>
    intro ready acc hle
    unfold drainReady
    split
    · rename_i hpm
      rw [popMin_none.mp hpm]
      simp
    · rename_i e rest hpm
      have hlen := popMin_length hpm
      have hperm := popMin_perm hpm
      refine (ih rest (acc ++ [e]) (by omega)).trans ?_
      rw [List.append_assoc]
      refine (List.Perm.append_left acc ?_).trans
        (List.Perm.append_left acc hperm.symm)
      simp

theorem map_set_self {α β : Type} (l : List α) (i : ℕ) (a : α)
    (f : α → β) (h : i < l.length) (hf : f a = f (l.get ⟨i, h⟩)) :
    (l.set i a).map f = l.map f := by
  induction l generalizing i with
  | nil => simp at h
  | cons x t ihl =>
    cases i with
    | zero => simpa using hf
    | succ i =>
      simp only [List.set, List.map, List.cons.injEq, true_and]
      exact ihl i (by simpa using h) hf

theorem listModify_map {α β : Type} (l : List α) (i : ℕ) (f : α → α)
    (g : α → β) (hfg : ∀ a, g (f a) = g a) :
    (listModify l i f).map g = l.map g := by
  induction l generalizing i with
  | nil => rfl
  | cons x t ihl =>
    cases i with
    | zero => simp [listModify, hfg]
    | succ i => simp [listModify, ihl]

theorem listModify_get {α : Type} (l : List α) (i : ℕ) (f : α → α)
    (j : ℕ) (hj : j < l.length) :
    (listModify l i f).get ⟨j, by rw [listModify_length]; exact hj⟩ =
      if j = i then f (l.get ⟨j, hj⟩) else l.get ⟨j, hj⟩ := by
  induction l generalizing i j with
  | nil => simp at hj
  | cons x t ihl =>
    cases i with
    | zero =>
      cases j with
      | zero => simp [listModify]
      | succ j => simp [listModify]
    | succ i =>
      cases j with
      | zero => simp [listModify]
      | succ j =>
        have := ihl i j (by simpa using hj)
        simp only [listModify, List.get_cons_succ]
        rw [this]
        by_cases hji : j = i
        · rw [if_pos hji, if_pos (by omega)]
        · rw [if_neg hji, if_neg (by omega)]

/-- The ids of a list of events, in order. -/
def idsOf (l : List Event48) : List ℕ := l.map Event48.id

@[simp] theorem idsOf_nil : idsOf [] = [] := rfl

@[simp] theorem idsOf_append (l1 l2 : List Event48) :
    idsOf (l1 ++ l2) = idsOf l1 ++ idsOf l2 := List.map_append _ _ _

@[simp] theorem idsOf_cons (e : Event48) (l : List Event48) :
    idsOf (e :: l) = e.id :: idsOf l := rfl

@[simp] theorem idsOf_length (l : List Event48) :
    (idsOf l).length = l.length := List.length_map _ _

theorem nodup_get_ne (l : List Event48) (hn : (idsOf l).Nodup)
    {j1 j2 : ℕ} (h1 : j1 < l.length) (h2 : j2 < l.length) (hne : j1 ≠ j2) :
    (l.get ⟨j1, h1⟩).id ≠ (l.get ⟨j2, h2⟩).id := by
  intro hc
  have hinj := List.nodup_iff_injective_get.mp hn
  have hg1 : (idsOf l).get ⟨j1, by simp [h1]⟩ = (l.get ⟨j1, h1⟩).id := by
    simp [idsOf]
  have hg2 : (idsOf l).get ⟨j2, by simp [h2]⟩ = (l.get ⟨j2, h2⟩).id := by
    simp [idsOf]
  have heq : (idsOf l).get ⟨j1, by simp [h1]⟩ =
      (idsOf l).get ⟨j2, by simp [h2]⟩ := by
    rw [hg1, hg2, hc]
  exact hne (congrArg Fin.val (hinj heq))

/-- The claim's invariant: `activeMap` is exactly the inverse of the
index-to-id function on `active` — every index is reachable from its
event's id, and every map entry points back at an index holding its
key. -/
def MapInv (l : List Event48) (m : ℕ → Option ℕ) : Prop :=
  (∀ i : ℕ, ∀ h : i < l.length, m ((l.get ⟨i, h⟩).id) = some i) ∧
  (∀ k i : ℕ, m k = some i → ∃ h : i < l.length, (l.get ⟨i, h⟩).id = k)

theorem mapInv_nil : MapInv [] mapEmpty :=
  ⟨fun i h => by simp at h, fun k i h => by simp [mapEmpty] at h⟩

theorem mapInv_append (l : List Event48) (m : ℕ → Option ℕ) (e : Event48)
    (hinv : MapInv l m)
    (hfresh : ∀ j : ℕ, ∀ hj : j < l.length, (l.get ⟨j, hj⟩).id ≠ e.id) :
    MapInv (l ++ [e]) (mapInsert m e.id l.length) := by
  constructor
  · intro i h
    have hlen : i < l.length + 1 := by simpa using h
    by_cases hi : i < l.length
    · have hget : (l ++ [e]).get ⟨i, h⟩ = l.get ⟨i, hi⟩ :=
        List.get_append i hi
      rw [hget]
      simp only [mapInsert]
      rw [if_neg (hfresh i hi)]
      exact hinv.1 i hi
    · have hieq : i = l.length := by omega
      subst hieq
      have hget : (l ++ [e]).get ⟨l.length, h⟩ = e := by simp
      rw [hget]
      simp [mapInsert]
  · intro k i hm
    simp only [mapInsert] at hm
    by_cases hk : k = e.id
    · rw [if_pos hk] at hm
      have hieq : i = l.length := by
        have := Option.some.injEq _ _ ▸ hm
        omega
      subst hieq
      refine ⟨by simp, ?_⟩
      have hget : (l ++ [e]).get ⟨l.length, by simp⟩ = e := by simp
      rw [hget, hk]
    · rw [if_neg hk] at hm
      obtain ⟨hi, hid⟩ := hinv.2 k i hm
      refine ⟨by simp; omega, ?_⟩
      have hget : (l ++ [e]).get ⟨i, by simp; omega⟩ = l.get ⟨i, hi⟩ :=
        List.get_append i hi
      rw [hget, hid]

theorem set_get {α : Type} (l : List α) (i j : ℕ) (a : α)
    (hj : j < l.length) :
    (l.set i a).get ⟨j, by rw [List.length_set]; exact hj⟩ =
      if j = i then a else l.get ⟨j, hj⟩ := by
  rw [List.get_eq_getElem]
  by_cases hji : j = i
  · subst hji
    rw [if_pos rfl, List.getElem_set_self]
  · rw [if_neg hji, List.getElem_set_ne (fun hc => hji hc.symm)]
    rfl

theorem mapInv_set (l : List Event48) (m : ℕ → Option ℕ) (i : ℕ)
    (a : Event48) (hi : i < l.length)
    (hid : a.id = (l.get ⟨i, hi⟩).id) (hinv : MapInv l m) :
    MapInv (l.set i a) m := by
  constructor
  · intro j hj
    have hj2 : j < l.length := by rwa [List.length_set] at hj
    rw [set_get l i j a hj2]
    by_cases hji : j = i
    · subst hji
      rw [if_pos rfl, hid]
      exact hinv.1 j hj2
    · rw [if_neg hji]
      exact hinv.1 j hj2
  · intro k j hm
    obtain ⟨hj, hidj⟩ := hinv.2 k j hm
    refine ⟨by rw [List.length_set]; exact hj, ?_⟩
    rw [set_get l i j a hj]
    by_cases hji : j = i
    · subst hji
      rw [if_pos rfl, hid]
      exact hidj
    · rw [if_neg hji]
      exact hidj

theorem listModify_eq_set {α : Type} (l : List α) (i : ℕ) (f : α → α)
    (h : i < l.length) :
    listModify l i f = l.set i (f (l.get ⟨i, h⟩)) := by
  induction l generalizing i with
  | nil => simp at h
  | cons a t ih =>
    cases i with
    | zero => rfl
    | succ i =>
      simp only [listModify, List.set, List.cons.injEq, true_and]
      exact ih i (by simpa using h)

theorem mapInv_retire (l : List Event48) (m : ℕ → Option ℕ) (i : ℕ)
    (h : i < l.length) (hn : (idsOf l).Nodup) (hinv : MapInv l m)
    (hnil : l ≠ []) :
    MapInv (swapRemove l i)
      (if i + 1 < l.length then
        mapInsert (mapRemove m (l.get ⟨i, h⟩).id) (l.getLast hnil).id i
      else mapRemove m (l.get ⟨i, h⟩).id) := by
  have hlast : l.getLast hnil = l.get ⟨l.length - 1, by omega⟩ :=
    List.getLast_eq_get l hnil
  by_cases hc : i + 1 < l.length
  · rw [if_pos hc]
    constructor
    · intro j hj
      have hj2 : j < l.length - 1 := by
        rwa [swapRemove_length l i h] at hj
      rw [swapRemove_get l i j h hj2 hnil]
      by_cases hji : j = i
      · subst hji
        rw [if_pos rfl]
        simp [mapInsert]
      · rw [if_neg hji]
        have hk1 : (l.get ⟨j, by omega⟩).id ≠ (l.getLast hnil).id := by
          rw [hlast]
          exact nodup_get_ne l hn _ _ (by omega)
        have hk2 : (l.get ⟨j, by omega⟩).id ≠ (l.get ⟨i, h⟩).id :=
          nodup_get_ne l hn _ _ hji
        simp only [mapInsert, mapRemove]
        rw [if_neg hk1, if_neg hk2]
        exact hinv.1 j (by omega)
    · intro k j hm
      simp only [mapInsert, mapRemove] at hm
      by_cases hk : k = (l.getLast hnil).id
      · rw [if_pos hk] at hm
        have hji : j = i := by
          have := Option.some.injEq _ _ ▸ hm
          omega
        subst hji
        refine ⟨by rw [swapRemove_length l j h]; omega, ?_⟩
        rw [swapRemove_get l j j h (by omega) hnil, if_pos rfl]
        exact hk.symm
      · rw [if_neg hk] at hm
        by_cases hke : k = (l.get ⟨i, h⟩).id
        · rw [if_pos hke] at hm
          simp at hm
        · rw [if_neg hke] at hm
          obtain ⟨hjl, hid⟩ := hinv.2 k j hm
          have hji : j ≠ i := by
            intro hji
            subst hji
            exact hke hid.symm
          have hjlast : j ≠ l.length - 1 := by
            intro hjl1
            apply hk
            rw [← hid, hlast]
            subst hjl1
            rfl
          refine ⟨by rw [swapRemove_length l i h]; omega, ?_⟩
          rw [swapRemove_get l i j h (by omega) hnil, if_neg hji]
          exact hid
  · rw [if_neg hc]
    constructor
    · intro j hj
      have hj2 : j < l.length - 1 := by
        rwa [swapRemove_length l i h] at hj
      have hji : j ≠ i := by omega
      rw [swapRemove_get l i j h hj2 hnil, if_neg hji]
      have hk2 : (l.get ⟨j, by omega⟩).id ≠ (l.get ⟨i, h⟩).id :=
        nodup_get_ne l hn _ _ hji
      simp only [mapRemove]
      rw [if_neg hk2]
      exact hinv.1 j (by omega)
    · intro k j hm
      simp only [mapRemove] at hm
      by_cases hke : k = (l.get ⟨i, h⟩).id
      · rw [if_pos hke] at hm
        simp at hm
      · rw [if_neg hke] at hm
        obtain ⟨hjl, hid⟩ := hinv.2 k j hm
        have hji : j ≠ i := by
          intro hji
          subst hji
          exact hke hid.symm
        refine ⟨by rw [swapRemove_length l i h]; omega, ?_⟩
        rw [swapRemove_get l i j h (by omega) hnil, if_neg hji]
        exact hid

theorem activeLoop_wf {M : Type} (add : M → M → M) (time half : ℝ)
    (render : Event48 → Event48 × M)
    (hid : ∀ e, ((render e).1).id = e.id) (s : ALoop M) (i : ℕ)
    (hinv : MapInv s.active s.activeMap)
    (hn : (idsOf s.active ++ idsOf s.past).Nodup) :
    MapInv (activeLoop add time half render s i).active
      (activeLoop add time half render s i).activeMap ∧
    (idsOf (activeLoop add time half render s i).active ++
      idsOf (activeLoop add time half render s i).past).Perm
      (idsOf s.active ++ idsOf s.past) := by
  suffices H : ∀ n (s : ALoop M) (i : ℕ), s.active.length - i ≤ n →
      MapInv s.active s.activeMap →
      (idsOf s.active ++ idsOf s.past).Nodup →
      MapInv (activeLoop add time half render s i).active
        (activeLoop add time half render s i).activeMap ∧
      (idsOf (activeLoop add time half render s i).active ++
        idsOf (activeLoop add time half render s i).past).Perm
        (idsOf s.active ++ idsOf s.past) by
    exact H (s.active.length - i) s i le_rfl hinv hn
  intro n
  induction n with
  | zero =>
    intro s i hle hinv hn
    rw [activeLoop, dif_neg (by omega)]
    exact ⟨hinv, List.Perm.refl _⟩
  | succ n ih =>
    intro s i hle hinv hn
    rw [activeLoop]
    by_cases h : i < s.active.length
    · rw [dif_pos h]
      have hnil : s.active ≠ [] := by
        intro hnil
        rw [hnil] at h
        simp at h
      by_cases hret : (s.active.get ⟨i, h⟩).end_time ≤ time + half
      · rw [if_pos hret]
        have hperm1 : ((s.active.get ⟨i, h⟩).id ::
            idsOf (swapRemove s.active i)).Perm (idsOf s.active) := by
          have := (swapRemove_perm s.active i h).map Event48.id
          simpa [idsOf] using this
        have hperm2 : (idsOf (swapRemove s.active i) ++
            idsOf (s.past ++ [s.active.get ⟨i, h⟩])).Perm
            (idsOf s.active ++ idsOf s.past) := by
          rw [idsOf_append]
          have h1 : (idsOf s.past ++ idsOf [s.active.get ⟨i, h⟩]).Perm
              ((s.active.get ⟨i, h⟩).id :: idsOf s.past) := by
            simp only [idsOf_cons, idsOf_nil]
            exact List.perm_append_singleton _ _
          refine (List.Perm.append_left _ h1).trans ?_
          refine List.Perm.trans ?_
            (List.Perm.append_right (idsOf s.past) hperm1)
          exact List.perm_middle
        have hres := ih
          { active := swapRemove s.active i
            activeMap :=
              if i + 1 < s.active.length then
                mapInsert (mapRemove s.activeMap (s.active.get ⟨i, h⟩).id)
                  (s.active.getLast (by
                    intro hnil2
                    rw [hnil2] at h
                    simp at h)).id i
              else mapRemove s.activeMap (s.active.get ⟨i, h⟩).id
            past := s.past ++ [s.active.get ⟨i, h⟩]
            out := s.out } i
          (by
            show (swapRemove s.active i).length - i ≤ n
            rw [swapRemove_length s.active i h]
            omega)
          (mapInv_retire s.active s.activeMap i h
            (List.Nodup.of_append_left hn) hinv hnil)
          (hperm2.symm.nodup hn)
        exact ⟨hres.1, hres.2.trans hperm2⟩
      · rw [if_neg hret]
        have hids : idsOf (s.active.set i
            ((render (s.active.get ⟨i, h⟩)).1)) = idsOf s.active :=
          map_set_self s.active i _ Event48.id h (by rw [hid])
        have hres := ih
          { s with
            active := s.active.set i ((render (s.active.get ⟨i, h⟩)).1)
            out := add s.out ((render (s.active.get ⟨i, h⟩)).2) } (i + 1)
          (by
            show (s.active.set i _).length - (i + 1) ≤ n
            rw [List.length_set]
            omega)
          (mapInv_set s.active s.activeMap i _ h (hid _) hinv)
          (by
            show (idsOf (s.active.set i _) ++ idsOf s.past).Nodup
            rw [hids]
            exact hn)
        refine ⟨hres.1, hres.2.trans ?_⟩
        show (idsOf (s.active.set i _) ++ idsOf s.past).Perm _
        rw [hids]
    · rw [dif_neg h]
      exact ⟨hinv, List.Perm.refl _⟩

theorem applyEditTo_id (em : ℕ → Option Edit48) (e : Event48) :
    (applyEditTo em e).id = e.id := by
  unfold applyEditTo
  cases em e.id <;> rfl

theorem rtaLoop_wf (st : Sequencer48)
    (hinv : MapInv st.active st.activeMap)
    (hn : (idsOf st.active ++ idsOf st.ready ++ idsOf st.past).Nodup) :
    MapInv (rtaLoop st).active (rtaLoop st).activeMap ∧
    (idsOf (rtaLoop st).active ++ idsOf (rtaLoop st).ready ++
      idsOf (rtaLoop st).past).Perm
      (idsOf st.active ++ idsOf st.ready ++ idsOf st.past) := by
  suffices H : ∀ n (st : Sequencer48), st.ready.length ≤ n →
      MapInv st.active st.activeMap →
      (idsOf st.active ++ idsOf st.ready ++ idsOf st.past).Nodup →
      MapInv (rtaLoop st).active (rtaLoop st).activeMap ∧
      (idsOf (rtaLoop st).active ++ idsOf (rtaLoop st).ready ++
        idsOf (rtaLoop st).past).Perm
        (idsOf st.active ++ idsOf st.ready ++ idsOf st.past) by
    exact H st.ready.length st le_rfl hinv hn
  intro n
  induction n with
  | zero =>
    intro st hle hinv hn
    have hz : st.ready = [] := List.length_eq_zero.mp (by omega)
    unfold rtaLoop
    split
    · exact ⟨hinv, List.Perm.refl _⟩
    · rename_i e rest hpm
      rw [popMin_none.mpr hz] at hpm
      simp at hpm
  | succ n ih =>
    intro st hle hinv hn
    unfold rtaLoop
    split
    · exact ⟨hinv, List.Perm.refl _⟩
    · rename_i e rest hpm
      by_cases hc : (e.start_time : WithBot ℝ) < st.activeThreshold
      · rw [if_pos hc]
        have hlen := popMin_length hpm
        have hperm := popMin_perm hpm
        have hmem : e.id ∈ idsOf st.ready :=
          List.mem_map_of_mem Event48.id
            (hperm.mem_iff.mpr (List.mem_cons_self e rest))
        have hdisj : List.Disjoint (idsOf st.active) (idsOf st.ready) :=
          (List.nodup_append.mp (List.Nodup.of_append_left hn)).2.2
        have hfresh : ∀ j : ℕ, ∀ hj : j < st.active.length,
            (st.active.get ⟨j, hj⟩).id ≠ (applyEditTo st.editMap e).id := by
          intro j hj hcj
          rw [applyEditTo_id] at hcj
          exact hdisj (hcj ▸ List.mem_map_of_mem Event48.id
            (List.get_mem st.active j hj)) hmem
        have hinv2 : MapInv (st.active ++ [applyEditTo st.editMap e])
            (mapInsert st.activeMap e.id st.active.length) := by
          have := mapInv_append st.active st.activeMap
            (applyEditTo st.editMap e) hinv hfresh
          rwa [applyEditTo_id] at this
        have hperm2 : (idsOf (st.active ++ [applyEditTo st.editMap e]) ++
            idsOf rest ++ idsOf st.past).Perm
            (idsOf st.active ++ idsOf st.ready ++ idsOf st.past) := by
          refine List.Perm.append_right _ ?_
          rw [idsOf_append]
          show ((idsOf st.active ++ [(applyEditTo st.editMap e).id]) ++
            idsOf rest).Perm (idsOf st.active ++ idsOf st.ready)
          rw [applyEditTo_id, List.append_assoc]
          refine List.Perm.append_left _ ?_
          show (e.id :: idsOf rest).Perm (idsOf st.ready)
          have := hperm.map Event48.id
          simpa [idsOf] using this.symm
        have hres := ih
          { st with
            ready := rest
            activeMap := mapInsert st.activeMap e.id st.active.length
            active := st.active ++ [applyEditTo st.editMap e]
            editMap := mapRemove st.editMap e.id }
          (by show rest.length ≤ n; omega)
          hinv2
          (hperm2.symm.nodup hn)
        exact ⟨hres.1, hres.2.trans hperm2⟩
      · rw [if_neg hc]
        exact ⟨hinv, List.Perm.refl _⟩

/-- No id appears twice across the three event collections. -/
def IdsNodup (st : Sequencer48) : Prop :=
  (idsOf st.active ++ idsOf st.ready ++ idsOf st.past).Nodup

/-- The well-formedness carried through every public operation: the
active map inverts active indexing, and ids are globally distinct. -/
def SeqWf (st : Sequencer48) : Prop :=
  MapInv st.active st.activeMap ∧ IdsNodup st

/-- A fresh id: one that no event held by the sequencer carries (the
source guarantees this by drawing ids from a global counter). -/
def idFresh (st : Sequencer48) (n : ℕ) : Prop :=
  n ∉ idsOf st.active ++ idsOf st.ready ++ idsOf st.past

theorem nodup_sandwich (A R P : List ℕ) (hn : (A ++ R ++ P).Nodup) :
    (A ++ P).Nodup := by
  have hp : ((A ++ R) ++ P).Perm ((A ++ P) ++ R) := by
    rw [List.append_assoc, List.append_assoc]
    exact List.Perm.append_left A List.perm_append_comm
  exact List.Nodup.of_append_left (hp.nodup hn)

theorem nodup_glue (A1 P1 A2 P2 R : List ℕ)
    (hperm : (A1 ++ P1).Perm (A2 ++ P2)) (hn : (A2 ++ R ++ P2).Nodup) :
    (A1 ++ R ++ P1).Nodup := by
  have h1 : ((A1 ++ R) ++ P1).Perm ((A1 ++ P1) ++ R) := by
    rw [List.append_assoc, List.append_assoc]
    exact List.Perm.append_left A1 List.perm_append_comm
  have h2 : ((A2 ++ R) ++ P2).Perm ((A2 ++ P2) ++ R) := by
    rw [List.append_assoc, List.append_assoc]
    exact List.Perm.append_left A2 List.perm_append_comm
  exact (h1.trans ((hperm.append_right R).trans h2.symm)).symm.nodup hn

theorem idsOf_map (f : Event48 → Event48) (hf : ∀ e, (f e).id = e.id)
    (l : List Event48) : idsOf (l.map f) = idsOf l := by
  unfold idsOf
  rw [List.map_map]
  exact List.map_congr_left (fun a _ => hf a)

theorem pushEvent_wf (st : Sequencer48) (event : Event48)
    (hwf : SeqWf st) (hfresh : idFresh st event.id) :
    SeqWf (st.pushEvent event) := by
  unfold Sequencer48.pushEvent
  split
  · constructor
    · show MapInv (st.active ++ [event])
        (mapInsert st.activeMap event.id st.active.length)
      refine mapInv_append st.active st.activeMap event hwf.1 ?_
      intro j hj hcj
      apply hfresh
      rw [← hcj]
      refine List.mem_append.mpr (Or.inl (List.mem_append.mpr (Or.inl ?_)))
      exact List.mem_map_of_mem Event48.id (List.get_mem st.active j hj)
    · show (idsOf (st.active ++ [event]) ++ idsOf st.ready ++
        idsOf st.past).Nodup
      have heq : idsOf (st.active ++ [event]) ++ idsOf st.ready ++
          idsOf st.past = idsOf st.active ++ event.id ::
            (idsOf st.ready ++ idsOf st.past) := by
        simp
      rw [heq]
      have hperm : (idsOf st.active ++ event.id ::
          (idsOf st.ready ++ idsOf st.past)).Perm
          (event.id :: (idsOf st.active ++
            (idsOf st.ready ++ idsOf st.past))) := List.perm_middle
      refine hperm.symm.nodup (List.nodup_cons.mpr ⟨?_, ?_⟩)
      · intro hc
        apply hfresh
        rw [List.append_assoc]
        exact hc
      · rw [← List.append_assoc]
        exact hwf.2
  · constructor
    · exact hwf.1
    · show (idsOf st.active ++ idsOf (event :: st.ready) ++
        idsOf st.past).Nodup
      have heq : idsOf st.active ++ idsOf (event :: st.ready) ++
          idsOf st.past = idsOf st.active ++ event.id ::
            (idsOf st.ready ++ idsOf st.past) := by
        simp
      rw [heq]
      refine (@List.perm_middle ℕ event.id (idsOf st.active)
        (idsOf st.ready ++ idsOf st.past)).symm.nodup
        (List.nodup_cons.mpr ⟨?_, ?_⟩)
      · intro hc
        apply hfresh
        rw [List.append_assoc]
        exact hc
      · rw [← List.append_assoc]
        exact hwf.2

theorem pushRelativeEvent_wf (st : Sequencer48) (event : Event48)
    (hwf : SeqWf st) (hfresh : idFresh st event.id) :
    SeqWf (st.pushRelativeEvent event) := by
  unfold Sequencer48.pushRelativeEvent
  have h := pushEvent_wf st { event with
    start_time := event.start_time + st.time
    end_time := event.end_time + st.time } hwf hfresh
  unfold Sequencer48.pushEvent at h
  exact h

theorem modify_active_wf (st : Sequencer48) (i : ℕ)
    (f : Event48 → Event48) (hf : ∀ e, (f e).id = e.id)
    (hwf : SeqWf st) (hi : i < st.active.length) :
    SeqWf { st with active := listModify st.active i f } := by
  constructor
  · show MapInv (listModify st.active i f) st.activeMap
    rw [listModify_eq_set st.active i f hi]
    exact mapInv_set st.active st.activeMap i _ hi (hf _) hwf.1
  · show (idsOf (listModify st.active i f) ++ idsOf st.ready ++
      idsOf st.past).Nodup
    have heq : idsOf (listModify st.active i f) = idsOf st.active := by
      unfold idsOf
      exact listModify_map st.active i f Event48.id hf
    rw [heq]
    exact hwf.2

theorem edit_wf (st : Sequencer48) (n : ℕ) (end_time fade_out_time : ℝ)
    (hwf : SeqWf st) : SeqWf (st.edit n end_time fade_out_time) := by
  unfold Sequencer48.edit
  split
  · rename_i i hm
    obtain ⟨hi, _⟩ := hwf.1.2 n i hm
    exact modify_active_wf st i _ (fun e => rfl) hwf hi
  · split
    · exact hwf
    · exact ⟨hwf.1, hwf.2⟩

theorem editRelative_wf (st : Sequencer48) (n : ℕ)
    (end_time fade_out_time : ℝ) (hwf : SeqWf st) :
    SeqWf (st.editRelative n end_time fade_out_time) := by
  unfold Sequencer48.editRelative
  split
  · rename_i i hm
    obtain ⟨hi, _⟩ := hwf.1.2 n i hm
    exact modify_active_wf st i _ (fun e => rfl) hwf hi
  · split
    · exact hwf
    · exact ⟨hwf.1, hwf.2⟩

theorem readyToActive_wf (st : Sequencer48) (t : ℝ) (hwf : SeqWf st) :
    SeqWf (st.readyToActive t) ∧
    (idsOf (st.readyToActive t).active ++ idsOf (st.readyToActive t).ready ++
      idsOf (st.readyToActive t).past).Perm
      (idsOf st.active ++ idsOf st.ready ++ idsOf st.past) := by
  unfold Sequencer48.readyToActive
  have h := rtaLoop_wf { st with
    activeThreshold :=
      ((t - st.sampleDuration * 0.5 : ℝ) : WithBot ℝ) } hwf.1 hwf.2
  exact ⟨⟨h.1, h.2.symm.nodup hwf.2⟩, h.2⟩

theorem postLoop_wf {M : Type} (add : M → M → M) (time half : ℝ)
    (render : Event48 → Event48 × M)
    (hid : ∀ e, ((render e).1).id = e.id) (T : Sequencer48)
    (hT : SeqWf T) (z : M) (nt : ℝ) :
    SeqWf { T with
      active := (activeLoop add time half render
        ⟨T.active, T.activeMap, T.past, z⟩ 0).active
      activeMap := (activeLoop add time half render
        ⟨T.active, T.activeMap, T.past, z⟩ 0).activeMap
      past := (activeLoop add time half render
        ⟨T.active, T.activeMap, T.past, z⟩ 0).past
      time := nt } := by
  have h3 := activeLoop_wf add time half render hid
    ⟨T.active, T.activeMap, T.past, z⟩ 0 hT.1
    (nodup_sandwich _ _ _ hT.2)
  refine ⟨h3.1, ?_⟩
  show (idsOf _ ++ idsOf T.ready ++ idsOf _).Nodup
  exact nodup_glue _ _ _ _ _ h3.2 hT.2

theorem dropPast_wf (st : Sequencer48) (hwf : SeqWf st) :
    SeqWf (if st.replayEvents then st else { st with past := [] }) := by
  split
  · exact hwf
  · refine ⟨hwf.1, ?_⟩
    show (idsOf st.active ++ idsOf st.ready ++
      idsOf ([] : List Event48)).Nodup
    simp only [idsOf_nil, List.append_nil]
    exact List.Nodup.of_append_left hwf.2

theorem tick_wf (st : Sequencer48) (hwf : SeqWf st) : SeqWf (st.tick).2 := by
  unfold Sequencer48.tick
  dsimp only
  exact postLoop_wf _ _ _ _ (fun e => rfl) _
    ((readyToActive_wf _ _ (dropPast_wf st hwf)).1) _ _

theorem process_wf (st : Sequencer48) (size : ℕ) (hwf : SeqWf st) :
    SeqWf (st.process size).2 := by
  unfold Sequencer48.process
  dsimp only
  exact postLoop_wf _ _ _ _
    (fun e => (renderProc_keeps _ _ _ _ _ _ e).2.1) _
    ((readyToActive_wf _ _ (dropPast_wf st hwf)).1) _ _

theorem rehome_nodup (st : Sequencer48) (hwf : SeqWf st)
    (f : Event48 → Event48) (hf : ∀ e, (f e).id = e.id) :
    (idsOf ((drainReady st.ready st.active ++ st.past.reverse).map f)).Nodup := by
  rw [idsOf_map f hf, idsOf_append]
  have hp1 : (idsOf (drainReady st.ready st.active)).Perm
      (idsOf st.active ++ idsOf st.ready) := by
    have := (drainReady_perm st.ready st.active).map Event48.id
    simpa [idsOf] using this
  have hp2 : (idsOf st.past.reverse).Perm (idsOf st.past) :=
    (List.reverse_perm st.past).map Event48.id
  exact ((hp1.append hp2).symm).nodup hwf.2

theorem reset_wf (st : Sequencer48) (hwf : SeqWf st) : SeqWf st.reset := by
  unfold Sequencer48.reset
  split
  · refine ⟨mapInv_nil, ?_⟩
    show (idsOf ([] : List Event48) ++
      idsOf ((drainReady st.ready st.active ++ st.past.reverse).map
        (fun e => { e with unit := e.unit.reset })) ++
      idsOf ([] : List Event48)).Nodup
    simp only [idsOf_nil, List.append_nil, List.nil_append]
    exact rehome_nodup st hwf _ (fun e => rfl)
  · refine ⟨mapInv_nil, ?_⟩
    show (idsOf ([] : List Event48) ++ idsOf ([] : List Event48) ++
      idsOf ([] : List Event48)).Nodup
    simp

theorem setSampleRate_wf (st : Sequencer48) (r : ℝ) (hwf : SeqWf st) :
    SeqWf (st.setSampleRate r) := by
  unfold Sequencer48.setSampleRate
  split
  · exact hwf
  · refine ⟨mapInv_nil, ?_⟩
    show (idsOf ([] : List Event48) ++
      idsOf ((drainReady st.ready st.active ++ st.past.reverse).map
        (fun e => { e with unit := e.unit.setSampleRate r })) ++
      idsOf ([] : List Event48)).Nodup
    simp only [idsOf_nil, List.append_nil, List.nil_append]
    exact rehome_nodup st hwf _ (fun e => rfl)

/-- C5: after every public operation of the sequencer (push,
push_relative, push_duration, edit, edit_relative, tick, process,
reset, set_sample_rate), `active_map` is exactly the inverse of the
index-to-id function on `active`: every active index is recorded under
its event's id, and every map entry points back at an index holding
its key (so no two distinct keys share an index).  The swap-remove
retirement path rekeys the swapped-in tail correctly, including when
the retired event is itself the tail.  The push operations assume the
pushed id is fresh, which the source's global counter provides. -/
theorem active_map_inverse (st : Sequencer48) (hwf : SeqWf st) :
    (∀ s e fe fi fo u n, idFresh st n →
      SeqWf (st.push s e fe fi fo u n)) ∧
    (∀ s e fe fi fo u n, idFresh st n →
      SeqWf (st.pushRelative s e fe fi fo u n)) ∧
    (∀ s d fe fi fo u n, idFresh st n →
      SeqWf (st.pushDuration s d fe fi fo u n)) ∧
    (∀ n e fo, SeqWf (st.edit n e fo)) ∧
    (∀ n e fo, SeqWf (st.editRelative n e fo)) ∧
    SeqWf (st.tick).2 ∧
    (∀ size, SeqWf (st.process size).2) ∧
    SeqWf st.reset ∧
    (∀ r, SeqWf (st.setSampleRate r)) := by
  refine ⟨?_, ?_, ?_, ?_, ?_, ?_, ?_, ?_, ?_⟩
  · intro s e fe fi fo u n hfresh
    exact pushEvent_wf st _ hwf hfresh
  · intro s e fe fi fo u n hfresh
    exact pushRelativeEvent_wf st _ hwf hfresh
  · intro s d fe fi fo u n hfresh
    exact pushEvent_wf st _ hwf hfresh
  · intro n e fo
    exact edit_wf st n e fo hwf
  · intro n e fo
    exact editRelative_wf st n e fo hwf
  · exact tick_wf st hwf
  · intro size
    exact process_wf st size hwf
  · exact reset_wf st hwf
  · intro r
    exact setSampleRate_wf st r hwf

theorem active_map_inverse_witness :
    SeqWf ((Sequencer48.new false 1).push 0 1 Fade.Smooth 0 0
      ⟨fun _ _ => 0, 0, 0⟩ 5) ∧
    SeqWf ((Sequencer48.new false 1).tick).2 := by
  have hwf : SeqWf (Sequencer48.new false 1) :=
    ⟨mapInv_nil, by simp [IdsNodup, Sequencer48.new]⟩
  have h := active_map_inverse (Sequencer48.new false 1) hwf
  exact ⟨h.1 0 1 Fade.Smooth 0 0 ⟨fun _ _ => 0, 0, 0⟩ 5
    (by simp [idFresh, Sequencer48.new]), h.2.2.2.2.2.1⟩

/-! ### Edit dispatch (claim C6) -/

/-- The C6 counterexample event: already retired to `past`, id 7. -/
noncomputable def cexEv6 : Event48 := ⟨cexUnit, 0, 1, Fade.Smooth, 0, 0, 7⟩

/-- The C6 counterexample state: its only event sits in `past`, the
active threshold is 0. -/
noncomputable def cexSt6 : Sequencer48 :=
  ⟨[], mapEmpty, ((0 : ℝ) : WithBot ℝ), [], [cexEv6], mapEmpty, 1, 0, 1,
    1, false⟩

/-- The in-place update `edit` applies to an active event. -/
def editSet (e fo : ℝ) : Event48 → Event48 :=
  fun ev => { ev with end_time := e, fade_out := fo }

/-- C6 (amended): `edit` dispatches on the active map and the active
threshold, not on where the event lives.  An active id is edited in
place; otherwise the edit is dropped exactly when the new end time is
below the threshold and queued in the edit map otherwise (even when
the target already sits in `past`); a queued edit is applied verbatim
to an event carrying its id on promotion. -/
theorem edit_dispatch (st : Sequencer48) (n : ℕ) (e fo : ℝ) :
    (∀ i, st.activeMap n = some i →
      st.edit n e fo =
        { st with active := listModify st.active i (editSet e fo) }) ∧
    (st.activeMap n = none →
      ((e : WithBot ℝ) < st.activeThreshold → st.edit n e fo = st) ∧
      (¬ (e : WithBot ℝ) < st.activeThreshold →
        st.edit n e fo =
          { st with editMap := mapInsert st.editMap n ⟨e, fo⟩ })) ∧
    (∀ ev rest, popMin st.ready = some (ev, rest) →
      (ev.start_time : WithBot ℝ) < st.activeThreshold →
      rtaLoop st = rtaLoop { st with
        ready := rest
        activeMap := mapInsert st.activeMap ev.id st.active.length
        active := st.active ++ [applyEditTo st.editMap ev]
        editMap := mapRemove st.editMap ev.id }) ∧
    (∀ ev : Event48, ev.id = n →
      applyEditTo (mapInsert st.editMap n ⟨e, fo⟩) ev =
        { ev with end_time := e, fade_out := fo }) := by
  refine ⟨?_, ?_, ?_, ?_⟩
  · intro i hm
    unfold Sequencer48.edit
    split
    · rename_i i2 hm2
      rw [hm] at hm2
      have : i = i2 := by
        have := Option.some.injEq _ _ ▸ hm2
        omega
      subst this
      rfl
    · rename_i hm2
      rw [hm] at hm2
      simp at hm2
  · intro hm
    constructor
    · intro hlt
      unfold Sequencer48.edit
      split
      · rename_i i2 hm2
        rw [hm] at hm2
        simp at hm2
      · rw [if_pos hlt]
    · intro hlt
      unfold Sequencer48.edit
      split
      · rename_i i2 hm2
        rw [hm] at hm2
        simp at hm2
      · rw [if_neg hlt]
  · intro ev rest hpm hlt
    conv =>
      lhs
      rw [rtaLoop]
    split
    · rename_i hpm2
      rw [hpm] at hpm2
      simp at hpm2
    · rename_i ev2 rest2 hpm2
      rw [hpm] at hpm2
      simp only [Option.some.injEq, Prod.mk.injEq] at hpm2
      rw [← hpm2.1, ← hpm2.2, if_pos hlt]
  · intro ev hid
    unfold applyEditTo
    rw [hid]
    simp [mapInsert]

/-- C6 as stated fails: the claim says an edit whose target has
already been retired to `past` leaves the entire sequencer state
unchanged, but the code queues it in the edit map whenever the new end
time is not below the active threshold. -/
theorem edit_dispatch_cex :
    cexSt6.past = [cexEv6] ∧ cexEv6.id = 7 ∧ cexSt6.activeMap 7 = none ∧
    cexSt6.edit 7 10 0 ≠ cexSt6 := by
  refine ⟨rfl, rfl, rfl, ?_⟩
  intro hc
  have hres : cexSt6.edit 7 10 0 =
      { cexSt6 with editMap := mapInsert cexSt6.editMap 7 ⟨10, 0⟩ } := by
    unfold Sequencer48.edit
    show (if ((10 : ℝ) : WithBot ℝ) < cexSt6.activeThreshold then cexSt6
      else { cexSt6 with
        editMap := mapInsert cexSt6.editMap 7 ⟨10, 0⟩ }) = _
    rw [if_neg (by
      intro hlt
      rw [show cexSt6.activeThreshold = ((0 : ℝ) : WithBot ℝ) from rfl]
        at hlt
      exact absurd (WithBot.coe_lt_coe.mp hlt) (by norm_num))]
  rw [hres] at hc
  have h7 := congrArg (fun s => s.editMap 7) hc
  simp [mapInsert, cexSt6, mapEmpty] at h7

theorem edit_dispatch_witness :
    cexSt4.edit 0 10 0 =
      { cexSt4 with active := listModify cexSt4.active 0 (editSet 10 0) } ∧
    cexSt6.edit 7 10 0 =
      { cexSt6 with editMap := mapInsert cexSt6.editMap 7 ⟨10, 0⟩ } := by
  constructor
  · exact (edit_dispatch cexSt4 0 10 0).1 0 rfl
  · exact ((edit_dispatch cexSt6 7 10 0).2.1 rfl).2 (by
      intro hlt
      rw [show cexSt6.activeThreshold = ((0 : ℝ) : WithBot ℝ) from rfl]
        at hlt
      exact absurd (WithBot.coe_lt_coe.mp hlt) (by norm_num))

/-! ### Sample-rate change and reset (claims C8 and C10) -/

/-- C8: `set_sample_rate` with an unchanged rate is a no-op; with a
new rate it empties `active` and `past` into the `ready` heap
regardless of `replay_events` (so already-expired events become
schedulable again), clears the active map, resets the threshold to
negative infinity, forwards the new rate to every unit while touching
nothing else of any event (in particular start and end times), keeps
the sequencer's time, and sets the new rate and sample duration. -/
theorem setSampleRate_behavior (st : Sequencer48) (r : ℝ) :
    (st.sampleRate = r → st.setSampleRate r = st) ∧
    (st.sampleRate ≠ r →
      (st.setSampleRate r).active = [] ∧
      (st.setSampleRate r).past = [] ∧
      (st.setSampleRate r).activeMap = mapEmpty ∧
      (st.setSampleRate r).activeThreshold = ⊥ ∧
      (st.setSampleRate r).time = st.time ∧
      (st.setSampleRate r).sampleRate = r ∧
      (st.setSampleRate r).sampleDuration = 1 / r ∧
      (st.setSampleRate r).replayEvents = st.replayEvents ∧
      (st.setSampleRate r).editMap = st.editMap ∧
      ((st.setSampleRate r).ready).Perm
        ((st.active ++ st.ready ++ st.past).map
          (fun e => { e with unit := e.unit.setSampleRate r }))) := by
  constructor
  · intro heq
    unfold Sequencer48.setSampleRate
    rw [if_pos heq]
  · intro hne
    unfold Sequencer48.setSampleRate
    rw [if_neg hne]
    refine ⟨rfl, rfl, rfl, rfl, rfl, rfl, rfl, rfl, rfl, ?_⟩
    exact ((drainReady_perm st.ready st.active).append
      (List.reverse_perm st.past)).map _

theorem setSampleRate_behavior_witness :
    (Sequencer48.new true 1).setSampleRate 44100 = Sequencer48.new true 1 ∧
    ((Sequencer48.new true 1).setSampleRate 1).activeThreshold = ⊥ ∧
    ((Sequencer48.new true 1).setSampleRate 1).time =
      (Sequencer48.new true 1).time := by
  refine ⟨(setSampleRate_behavior (Sequencer48.new true 1) 44100).1 rfl,
    ?_, ?_⟩
  · exact ((setSampleRate_behavior (Sequencer48.new true 1) 1).2 (by
      show DEFAULT_SR ≠ 1
      norm_num [DEFAULT_SR])).2.2.2.1
  · exact ((setSampleRate_behavior (Sequencer48.new true 1) 1).2 (by
      show DEFAULT_SR ≠ 1
      norm_num [DEFAULT_SR])).2.2.2.2.1

/-- C10: with `replay_events` set, `reset` leaves the edit map
unchanged — it only rehomes every event to `ready` with its unit
reset, clears the active map and the time, and resets the threshold —
so a queued edit survives the reset; the edit map is cleared by
`reset` exactly when `replay_events` is false. -/
theorem reset_editMap (st : Sequencer48) :
    (st.replayEvents = true →
      (st.reset).editMap = st.editMap ∧
      (st.reset).active = [] ∧
      (st.reset).past = [] ∧
      (st.reset).activeMap = mapEmpty ∧
      (st.reset).time = 0 ∧
      (st.reset).activeThreshold = ⊥ ∧
      ((st.reset).ready).Perm ((st.active ++ st.ready ++ st.past).map
        (fun e => { e with unit := e.unit.reset }))) ∧
    (st.replayEvents = false → (st.reset).editMap = mapEmpty) := by
  constructor
  · intro h1
    unfold Sequencer48.reset
    rw [if_pos h1]
    refine ⟨rfl, rfl, rfl, rfl, rfl, rfl, ?_⟩
    exact ((drainReady_perm st.ready st.active).append
      (List.reverse_perm st.past)).map _
  · intro h2
    unfold Sequencer48.reset
    rw [if_neg (by rw [h2]; simp)]

/-- A replaying sequencer with a pending edit queued for id 3. -/
noncomputable def wst10 : Sequencer48 :=
  { Sequencer48.new true 1 with editMap := mapInsert mapEmpty 3 ⟨1, 0⟩ }

theorem reset_editMap_witness :
    (wst10.reset).editMap 3 = some ⟨1, 0⟩ ∧
    ((Sequencer48.new false 1).reset).editMap = mapEmpty := by
  constructor
  · have h := ((reset_editMap wst10).1 rfl).1
    rw [h]
    simp [wst10, mapInsert]
  · exact (reset_editMap (Sequencer48.new false 1)).2 rfl

/-! ### tick versus process of size one (claim C2) -/

theorem fade_at_one (f : Fade) : Fade.at f 1 = 1 := by
  cases f
  · exact sine_ease_one
  · exact smooth5_one

theorem sd_pos {sd sr : ℝ} (hsd : sd * sr = 1) (hsr : 0 < sr) : 0 < sd := by
  by_contra hle
  push_neg at hle
  nlinarith

theorem procStartIndex_zero (T sr sd : ℝ) (hsd : sd * sr = 1)
    (hsr : 0 < sr) (e : Event48) (hstart : e.start_time ≤ T + sd * 0.5) :
    procStartIndex T sr e = 0 := by
  unfold procStartIndex
  by_cases h : e.start_time ≤ T
  · rw [if_pos h]
  · rw [if_neg h]
    push_neg at h
    have h0 : 0 ≤ (e.start_time - T) * sr :=
      mul_nonneg (by linarith) (le_of_lt hsr)
    have hhalf : (e.start_time - T) * sr ≤ 1 / 2 := by
      have hm := mul_le_mul_of_nonneg_right
        (show e.start_time - T ≤ sd * 0.5 by linarith) (le_of_lt hsr)
      have he : sd * 0.5 * sr = 1 / 2 := by
        rw [mul_comm sd 0.5, mul_assoc, hsd]
        norm_num
      linarith
    rw [round48_of_le_half h0 hhalf]
    rfl

theorem procEndIndex_one (T sr sd : ℝ) (hsd : sd * sr = 1)
    (hsr : 0 < sr) (e : Event48) (hend : T + sd * 0.5 < e.end_time) :
    procEndIndex T sr (T + sd) 1 e = 1 := by
  unfold procEndIndex
  by_cases h : T + sd ≤ e.end_time
  · rw [if_pos h]
  · rw [if_neg h]
    push_neg at h
    have hsd0 : 0 < sd := sd_pos hsd hsr
    have h1 : (e.end_time - T) * sr < 1 := by
      have hm := mul_lt_mul_of_pos_right
        (show e.end_time - T < sd by linarith) hsr
      linarith [hsd]
    have h2 : 1 / 2 < (e.end_time - T) * sr := by
      have hm := mul_lt_mul_of_pos_right
        (show sd * 0.5 < e.end_time - T by linarith) hsr
      have he : sd * 0.5 * sr = 1 / 2 := by
        rw [mul_comm sd 0.5, mul_assoc, hsd]
        norm_num
      linarith
    rw [round48_of_half_lt h2 h1]
    rfl

theorem fade_in48_at_zero (sd sr T : ℝ) (hsd : sd * sr = 1)
    (hsr : 0 < sr) (ease : Fade) (fi start : ℝ) (output : ℕ → ℕ → ℝ)
    (c : ℕ)
    (hfi : 0 < fi → start + fi ≤ T ∨ T + sd * 0.5 < start + fi) :
    fade_in48 sd T (T + sd) 0 1 ease fi start output c 0 =
      output c 0 * fadeFactorIn ease start fi T := by
  have hsd0 : 0 < sd := sd_pos hsd hsr
  simp only [fade_in48, fadeFactorIn]
  by_cases h1 : 0 < fi
  · rcases hfi h1 with hover | hfar
    · have hcond : ¬ (0 < fi ∧ T < start + fi) := by
        push_neg
        intro _
        linarith
      rw [if_neg hcond, if_pos h1]
      have hd : ¬ delerp start (start + fi) T < 1 := by
        unfold delerp
        push_neg
        rw [show start + fi - start = fi by ring, le_div_iff h1]
        linarith
      rw [if_neg hd, mul_one]
    · by_cases h2 : T < start + fi
      · rw [if_pos (show (0 : ℝ) < fi ∧ T < start + fi from ⟨h1, h2⟩)]
        have hei : (if T + sd ≤ start + fi then (1 : ℕ)
            else (round48 ((start + fi - T) / sd)).toNat) = 1 := by
          by_cases h3 : T + sd ≤ start + fi
          · rw [if_pos h3]
          · rw [if_neg h3]
            push_neg at h3
            have hlt : (start + fi - T) / sd < 1 := by
              rw [div_lt_one hsd0]
              linarith
            have hgt : 1 / 2 < (start + fi - T) / sd := by
              rw [lt_div_iff hsd0]
              linarith
            rw [round48_of_half_lt hgt hlt]
            rfl
        rw [hei]
        have hdlt : delerp start (start + fi) T < 1 := by
          unfold delerp
          rw [show start + fi - start = fi by ring, div_lt_one h1]
          linarith
        rw [if_pos h1, if_pos hdlt]
        show (if (0 : ℕ) < 1 then output c 0 * Fade.at ease
            (delerp start (start + fi) (T + ((0 : ℕ) : ℝ) * sd) +
              ((0 : ℕ) : ℝ) * (sd / fi))
          else output c 0) =
          output c 0 * Fade.at ease (delerp start (start + fi) T)
        rw [if_pos (by norm_num : (0 : ℕ) < 1)]
        norm_num
      · exfalso
        push_neg at h2
        linarith
  · rw [if_neg (by tauto), if_neg h1, mul_one]

theorem fade_out48_at_zero (sd sr T : ℝ) (hsd : sd * sr = 1)
    (hsr : 0 < sr) (ease : Fade) (fo endt : ℝ) (output : ℕ → ℕ → ℝ)
    (c : ℕ)
    (hfo : 0 < fo → endt - fo ≤ T ∨ T + sd * 0.5 < endt - fo) :
    fade_out48 sd T (T + sd) 0 1 ease fo endt output c 0 =
      output c 0 * fadeFactorOut ease endt fo T := by
  have hsd0 : 0 < sd := sd_pos hsd hsr
  simp only [fade_out48, fadeFactorOut]
  by_cases h1 : 0 < fo
  · rcases hfo h1 with hpast | hfar
    · rw [if_pos (show (0 : ℝ) < fo ∧ endt - fo < T + sd from
        ⟨h1, by linarith⟩), if_pos h1, if_pos hpast]
      show (if (0 : ℕ) ≤ 0 ∧ (0 : ℕ) < 1 then output c 0 * Fade.at ease
          (1 - (delerp (endt - fo) endt (T + ((0 : ℕ) : ℝ) * sd) +
            (((0 : ℕ) : ℝ) - ((0 : ℕ) : ℝ)) * (sd / fo)))
        else output c 0) = output c 0 *
          (if 0 < delerp (endt - fo) endt T then
            Fade.at ease (1 - delerp (endt - fo) endt T) else 1)
      rw [if_pos (show (0 : ℕ) ≤ 0 ∧ (0 : ℕ) < 1 by norm_num)]
      have hsimp : delerp (endt - fo) endt (T + ((0 : ℕ) : ℝ) * sd) +
          (((0 : ℕ) : ℝ) - ((0 : ℕ) : ℝ)) * (sd / fo) =
            delerp (endt - fo) endt T := by
        norm_num
      rw [hsimp]
      rcases lt_or_eq_of_le hpast with hTlt | hTeq
      · rw [if_pos (show 0 < delerp (endt - fo) endt T by
          unfold delerp
          rw [show endt - (endt - fo) = fo by ring]
          exact div_pos (by linarith) h1)]
      · have hd0 : delerp (endt - fo) endt T = 0 := by
          unfold delerp
          rw [← hTeq]
          simp
        rw [hd0, if_neg (lt_irrefl 0), sub_zero, fade_at_one, mul_one]
    · have hdneg : ¬ 0 < delerp (endt - fo) endt T := by
        unfold delerp
        push_neg
        rw [show endt - (endt - fo) = fo by ring]
        apply div_nonpos_of_nonpos_of_nonneg
        · linarith
        · linarith
      rw [if_pos h1, if_neg hdneg, mul_one]
      by_cases hact : endt - fo < T + sd
      · rw [if_pos (show (0 : ℝ) < fo ∧ endt - fo < T + sd from
          ⟨h1, hact⟩), if_neg (show ¬ endt - fo ≤ T by linarith)]
        have hx1 : (endt - fo - T) / sd < 1 := by
          rw [div_lt_one hsd0]
          linarith
        have hx2 : 1 / 2 < (endt - fo - T) / sd := by
          rw [lt_div_iff hsd0]
          linarith
        rw [round48_of_half_lt hx2 hx1,
          show ((1 : ℤ)).toNat = (1 : ℕ) from rfl]
        show (if (1 : ℕ) ≤ 0 ∧ (0 : ℕ) < 1 then _ else output c 0) =
          output c 0
        rw [if_neg (by norm_num : ¬ ((1 : ℕ) ≤ 0 ∧ (0 : ℕ) < 1))]
      · rw [if_neg (show ¬ ((0 : ℝ) < fo ∧ endt - fo < T + sd) by
          tauto)]
  · rw [if_neg (show ¬ ((0 : ℝ) < fo ∧ endt - fo < T + sd) by tauto),
      if_neg h1, mul_one]

theorem renderProc_one_eq_tick (outputs : ℕ) (T sr sd ET : ℝ)
    (hET : ET = T + sd) (hsd : sd * sr = 1) (hsr : 0 < sr) (e : Event48)
    (hstart : e.start_time ≤ T + sd * 0.5)
    (hfi : 0 < e.fade_in → e.start_time + e.fade_in ≤ T ∨
      T + sd * 0.5 < e.start_time + e.fade_in)
    (hfo : 0 < e.fade_out → e.end_time - e.fade_out ≤ T ∨
      T + sd * 0.5 < e.end_time - e.fade_out)
    (hend : T + sd * 0.5 < e.end_time) :
    (renderProc outputs T sr sd ET 1 e).1 = (renderTick outputs T e).1 ∧
    ∀ c, (renderProc outputs T sr sd ET 1 e).2 c 0 =
      (renderTick outputs T e).2 c := by
  subst hET
  have hsi := procStartIndex_zero T sr sd hsd hsr e hstart
  have hei := procEndIndex_one T sr sd hsd hsr e hend
  constructor
  · unfold renderProc
    rw [hsi, hei, if_pos (by norm_num : (0 : ℕ) < 1)]
    rfl
  · intro c
    unfold renderProc renderTick
    rw [hsi, hei, if_pos (by norm_num : (0 : ℕ) < 1)]
    show (if c < outputs ∧ (0 : ℕ) ≤ 0 ∧ (0 : ℕ) < 1 then
        procBuffer outputs T sr sd (T + sd) 1 e c (0 - 0) else 0) =
      (if c < outputs then e.unit.gen e.unit.pos c else 0) *
        fadeFactorIn e.fade_ease e.start_time e.fade_in T *
        fadeFactorOut e.fade_ease e.end_time e.fade_out T
    by_cases hc : c < outputs
    · rw [if_pos (⟨hc, Nat.le_refl 0, by norm_num⟩ :
        c < outputs ∧ (0 : ℕ) ≤ 0 ∧ (0 : ℕ) < 1)]
      unfold procBuffer
      rw [hsi, hei]
      rw [fade_out48_at_zero sd sr T hsd hsr e.fade_ease e.fade_out
        e.end_time _ c hfo]
      rw [fade_in48_at_zero sd sr T hsd hsr e.fade_ease e.fade_in
        e.start_time _ c hfi]
      rw [if_pos (⟨hc, by norm_num⟩ :
        c < outputs ∧ (0 : ℕ) - 0 < 1 - 0), if_pos hc]
      rfl
    · rw [if_neg (by tauto), if_neg hc, zero_mul, zero_mul]

theorem activeLoop_proj {M N : Type} (addM : M → M → M) (addN : N → N → N)
    (φ : M → N) (hadd : ∀ a b, φ (addM a b) = addN (φ a) (φ b))
    (time half : ℝ) (renderM : Event48 → Event48 × M)
    (renderN : Event48 → Event48 × N) (P : Event48 → Prop)
    (hP : ∀ e, P e → ¬ e.end_time ≤ time + half →
      (renderM e).1 = (renderN e).1 ∧ φ ((renderM e).2) = (renderN e).2) :
    ∀ (act : List Event48) (m : ℕ → Option ℕ) (p : List Event48)
      (oM : M) (oN : N), φ oM = oN → ∀ i : ℕ,
      (∀ j : ℕ, i ≤ j → ∀ hj : j < act.length, P (act.get ⟨j, hj⟩)) →
      (activeLoop addM time half renderM ⟨act, m, p, oM⟩ i).active =
        (activeLoop addN time half renderN ⟨act, m, p, oN⟩ i).active ∧
      (activeLoop addM time half renderM ⟨act, m, p, oM⟩ i).activeMap =
        (activeLoop addN time half renderN ⟨act, m, p, oN⟩ i).activeMap ∧
      (activeLoop addM time half renderM ⟨act, m, p, oM⟩ i).past =
        (activeLoop addN time half renderN ⟨act, m, p, oN⟩ i).past ∧
      φ (activeLoop addM time half renderM ⟨act, m, p, oM⟩ i).out =
        (activeLoop addN time half renderN ⟨act, m, p, oN⟩ i).out := by
  suffices H : ∀ n (act : List Event48) (m : ℕ → Option ℕ)
      (p : List Event48) (oM : M) (oN : N), φ oM = oN → ∀ i : ℕ,
      act.length - i ≤ n →
      (∀ j : ℕ, i ≤ j → ∀ hj : j < act.length, P (act.get ⟨j, hj⟩)) →
      (activeLoop addM time half renderM ⟨act, m, p, oM⟩ i).active =
        (activeLoop addN time half renderN ⟨act, m, p, oN⟩ i).active ∧
      (activeLoop addM time half renderM ⟨act, m, p, oM⟩ i).activeMap =
        (activeLoop addN time half renderN ⟨act, m, p, oN⟩ i).activeMap ∧
      (activeLoop addM time half renderM ⟨act, m, p, oM⟩ i).past =
        (activeLoop addN time half renderN ⟨act, m, p, oN⟩ i).past ∧
      φ (activeLoop addM time half renderM ⟨act, m, p, oM⟩ i).out =
        (activeLoop addN time half renderN ⟨act, m, p, oN⟩ i).out by
    intro act m p oM oN ho i hinv
    exact H (act.length - i) act m p oM oN ho i le_rfl hinv
  intro n
  induction n with
  | zero =>
    intro act m p oM oN ho i hle hinv
    rw [activeLoop, activeLoop, dif_neg (by simp; omega),
      dif_neg (by simp; omega)]
    exact ⟨rfl, rfl, rfl, ho⟩
  | succ n ih =>
    intro act m p oM oN ho i hle hinv
    rw [activeLoop, activeLoop]
    dsimp only
    by_cases h : i < act.length
    · rw [dif_pos h, dif_pos h]
      by_cases hret : (act.get ⟨i, h⟩).end_time ≤ time + half
      · rw [if_pos hret, if_pos hret]
        apply ih _ _ _ _ _ ho
        · show (swapRemove act i).length - i ≤ n
          rw [swapRemove_length act i h]
          omega
        · intro j hij hj
          have hj2 : j < act.length - 1 := by
            rwa [swapRemove_length act i h] at hj
          rw [swapRemove_get act i j h hj2 (by
            intro hnil
            rw [hnil] at h
            simp at h)]
          by_cases hji : j = i
          · rw [if_pos hji]
            have hlast : act.getLast (by
                intro hnil
                rw [hnil] at h
                simp at h) = act.get ⟨act.length - 1, by omega⟩ :=
              List.getLast_eq_get act _
            rw [hlast]
            exact hinv (act.length - 1) (by omega) (by omega)
          · rw [if_neg hji]
            exact hinv j hij (by omega)
      · rw [if_neg hret, if_neg hret]
        have hPe := hP (act.get ⟨i, h⟩) (hinv i le_rfl h) hret
        rw [hPe.1]
        apply ih _ _ _ _ _ (by rw [hadd, ho, hPe.2])
        · rw [List.length_set]
          omega
        · intro j hij hj
          have hj2 : j < act.length := by rwa [List.length_set] at hj
          rw [set_get act i j _ hj2, if_neg (by omega)]
          exact hinv j (by omega) hj2
    · rw [dif_neg h, dif_neg h]
      exact ⟨rfl, rfl, rfl, ho⟩

theorem applyEditTo_remove (em : ℕ → Option Edit48) (k : ℕ)
    (e : Event48) :
    applyEditTo (mapRemove em k) e =
      if e.id = k then e else applyEditTo em e := by
  unfold applyEditTo mapRemove
  by_cases h : e.id = k <;> simp [h]

theorem rtaLoop_active_mem (st : Sequencer48) :
    ∀ x ∈ (rtaLoop st).active, x ∈ st.active ∨
      ∃ e ∈ st.ready, (e.start_time : WithBot ℝ) < st.activeThreshold ∧
        (x = e ∨ x = applyEditTo st.editMap e) := by
  suffices H : ∀ n (st : Sequencer48), st.ready.length ≤ n →
      ∀ x ∈ (rtaLoop st).active, x ∈ st.active ∨
        ∃ e ∈ st.ready, (e.start_time : WithBot ℝ) < st.activeThreshold ∧
          (x = e ∨ x = applyEditTo st.editMap e) by
    exact H st.ready.length st le_rfl
  intro n
  induction n with
  | zero =>
    intro st hle x hx
    have hz : st.ready = [] := List.length_eq_zero.mp (by omega)
    rw [rtaLoop_nil st hz] at hx
    exact Or.inl hx
  | succ n ih =>
    intro st hle x hx
    unfold rtaLoop at hx
    split at hx
    · exact Or.inl hx
    · rename_i e rest hpm
      by_cases hc : (e.start_time : WithBot ℝ) < st.activeThreshold
      · rw [if_pos hc] at hx
        have hlen := popMin_length hpm
        have hperm := popMin_perm hpm
        have hres := ih _ (by show rest.length ≤ n; omega) x hx
        rcases hres with hmem | hex
        · rcases List.mem_append.mp hmem with h1 | h1
          · exact Or.inl h1
          · right
            refine ⟨e, hperm.mem_iff.mpr (List.mem_cons_self e rest),
              hc, ?_⟩
            right
            exact List.mem_singleton.mp h1
        · obtain ⟨e2, he2, hthr2, hx2⟩ := hex
          right
          have he2r : e2 ∈ st.ready :=
            hperm.mem_iff.mpr (List.mem_cons_of_mem e he2)
          refine ⟨e2, he2r, hthr2, ?_⟩
          rcases hx2 with h1 | h1
          · exact Or.inl h1
          · rw [applyEditTo_remove] at h1
            by_cases hid : e2.id = e.id
            · rw [if_pos hid] at h1
              exact Or.inl h1
            · rw [if_neg hid] at h1
              exact Or.inr h1
      · rw [if_neg hc] at hx
        exact Or.inl hx

/-- The events promoted by `ready_to_active` come from the ready heap,
start strictly before the threshold the call installs, and carry their
pending edit applied or not (depending on earlier removals). -/
theorem readyToActive_active_mem (st : Sequencer48) (t : ℝ) :
    ∀ x ∈ (st.readyToActive t).active, x ∈ st.active ∨
      ∃ e ∈ st.ready, e.start_time < t - st.sampleDuration * 0.5 ∧
        (x = e ∨ x = applyEditTo st.editMap e) := by
  intro x hx
  unfold Sequencer48.readyToActive at hx
  have h := rtaLoop_active_mem _ x hx
  rcases h with h1 | hex
  · exact Or.inl h1
  · obtain ⟨e, he, hthr, hx2⟩ := hex
    right
    refine ⟨e, he, ?_, hx2⟩
    have hthr2 : (e.start_time : WithBot ℝ) <
        ((t - st.sampleDuration * 0.5 : ℝ) : WithBot ℝ) := hthr
    exact WithBot.coe_lt_coe.mp hthr2

/-- C2 (amended): a `tick` call agrees with a `process` call of size 1
— same output frame (the block's sample 0) and same final state —
whenever no fade boundary of any event taking part in the call falls
strictly inside the first half sample after the current time.  The
events taking part are those already active and those the call
promotes: ready events starting before `time + sd/2` (with a pending
edit applied or not); ready events scheduled later are untouched by
both calls and need no proviso.  Without the proviso the two calls
differ, because `process` rounds fade boundaries to sample indices
while `tick` compares exact phases (see the counterexample). -/
theorem tick_process_one (st : Sequencer48)
    (hsd : st.sampleDuration * st.sampleRate = 1)
    (hsr : 0 < st.sampleRate)
    (hev : ∀ e : Event48, (e ∈ st.active ∨ ∃ e0 ∈ st.ready,
        e0.start_time < st.time + st.sampleDuration * 0.5 ∧
        (e = e0 ∨ e = applyEditTo st.editMap e0)) →
      e.start_time ≤ st.time + st.sampleDuration * 0.5 ∧
      (0 < e.fade_in → e.start_time + e.fade_in ≤ st.time ∨
        st.time + st.sampleDuration * 0.5 < e.start_time + e.fade_in) ∧
      (0 < e.fade_out → e.end_time - e.fade_out ≤ st.time ∨
        st.time + st.sampleDuration * 0.5 < e.end_time - e.fade_out)) :
    (∀ c, (st.tick).1 c = (st.process 1).1 c 0) ∧
    (st.tick).2 = (st.process 1).2 := by
  unfold Sequencer48.tick Sequencer48.process
  dsimp only
  simp only [Nat.cast_one, mul_one]
  set st1 := if st.replayEvents then st else { st with past := [] }
    with hst1
  set T2 := st1.readyToActive (st1.time + st1.sampleDuration) with hT2
  have hfields := readyToActive_fields st1 (st1.time + st1.sampleDuration)
  have hst1f : st1.time = st.time ∧ st1.sampleDuration = st.sampleDuration ∧
      st1.sampleRate = st.sampleRate ∧ st1.active = st.active ∧
      st1.ready = st.ready ∧ st1.editMap = st.editMap := by
    rw [hst1]
    split
    · exact ⟨rfl, rfl, rfl, rfl, rfl, rfl⟩
    · exact ⟨rfl, rfl, rfl, rfl, rfl, rfl⟩
  have hT2t : T2.time = st.time := by rw [hfields.1, hst1f.1]
  have hT2sd : T2.sampleDuration = st.sampleDuration := by
    rw [hfields.2.2.1, hst1f.2.1]
  have hT2sr : T2.sampleRate = st.sampleRate := by
    rw [hfields.2.1, hst1f.2.2.1]
  have hET : st1.time + st1.sampleDuration = T2.time + T2.sampleDuration := by
    rw [hfields.1, hfields.2.2.1]
  have hP : ∀ e : Event48,
      (e.start_time ≤ st.time + st.sampleDuration * 0.5 ∧
        (0 < e.fade_in → e.start_time + e.fade_in ≤ st.time ∨
          st.time + st.sampleDuration * 0.5 < e.start_time + e.fade_in) ∧
        (0 < e.fade_out → e.end_time - e.fade_out ≤ st.time ∨
          st.time + st.sampleDuration * 0.5 < e.end_time - e.fade_out)) →
      ¬ e.end_time ≤ T2.time + 0.5 * T2.sampleDuration →
      (renderProc T2.outputs T2.time T2.sampleRate T2.sampleDuration
        (st1.time + st1.sampleDuration) 1 e).1 =
        (renderTick T2.outputs T2.time e).1 ∧
      (fun c => (renderProc T2.outputs T2.time T2.sampleRate
        T2.sampleDuration (st1.time + st1.sampleDuration) 1 e).2 c 0) =
        (renderTick T2.outputs T2.time e).2 := by
    intro e hPe hret
    have hsd2 : T2.sampleDuration * T2.sampleRate = 1 := by
      rw [hT2sd, hT2sr]
      exact hsd
    have hsr2 : 0 < T2.sampleRate := by
      rw [hT2sr]
      exact hsr
    have hr := renderProc_one_eq_tick T2.outputs T2.time T2.sampleRate
      T2.sampleDuration (st1.time + st1.sampleDuration) hET hsd2 hsr2 e
      (by rw [hT2t, hT2sd]; exact hPe.1)
      (by rw [hT2t, hT2sd]; exact hPe.2.1)
      (by rw [hT2t, hT2sd]; exact hPe.2.2)
      (by push_neg at hret; linarith [hret])
    exact ⟨hr.1, funext hr.2⟩
  have hinv : ∀ j : ℕ, 0 ≤ j → ∀ hj : j < T2.active.length,
      (fun e : Event48 =>
        e.start_time ≤ st.time + st.sampleDuration * 0.5 ∧
        (0 < e.fade_in → e.start_time + e.fade_in ≤ st.time ∨
          st.time + st.sampleDuration * 0.5 < e.start_time + e.fade_in) ∧
        (0 < e.fade_out → e.end_time - e.fade_out ≤ st.time ∨
          st.time + st.sampleDuration * 0.5 < e.end_time - e.fade_out))
        (T2.active.get ⟨j, hj⟩) := by
    intro j hle hj
    have hmem := readyToActive_active_mem st1
      (st1.time + st1.sampleDuration) _ (List.get_mem T2.active j hj)
    apply hev
    rcases hmem with h1 | hex
    · left
      rw [← hst1f.2.2.2.1]
      exact h1
    · right
      obtain ⟨e0, he0, hs0, hx⟩ := hex
      rw [hst1f.2.2.2.2.1] at he0
      rw [hst1f.2.2.2.2.2] at hx
      refine ⟨e0, he0, ?_, hx⟩
      rw [hst1f.1, hst1f.2.1] at hs0
      linarith
  have hproj := activeLoop_proj
    (fun a b => fun c j => a c j + b c j)
    (fun a b => fun c => a c + b c)
    (fun bO => fun c => bO c 0)
    (fun a b => rfl)
    T2.time (0.5 * T2.sampleDuration)
    (renderProc T2.outputs T2.time T2.sampleRate T2.sampleDuration
      (st1.time + st1.sampleDuration) 1)
    (renderTick T2.outputs T2.time)
    _ hP
    T2.active T2.activeMap T2.past (fun _ _ => 0) (fun _ => 0) rfl 0 hinv
  constructor
  · intro c
    exact (congrFun hproj.2.2.2 c).symm
  · rw [hproj.1, hproj.2.1, hproj.2.2.1]

/-- The C2 witness events: one already active (started at `-1`), one
in the ready heap starting at `-2` and promoted by the call; both
fade-free and ending at `10`. -/
noncomputable def wEv2a : Event48 := ⟨cexUnit, -1, 10, Fade.Smooth, 0, 0, 0⟩

/-- The second C2 witness event (see `wEv2a`). -/
noncomputable def wEv2b : Event48 := ⟨cexUnit, -2, 10, Fade.Smooth, 0, 0, 1⟩

/-- The C2 witness state: sample rate 1, time 0, one active event and
one promotable ready event, so both prongs of the proviso are
exercised non-vacuously. -/
noncomputable def wSt2 : Sequencer48 :=
  ⟨[wEv2a], mapInsert mapEmpty 0 0, ((-(1 : ℝ) / 2 : ℝ) : WithBot ℝ),
    [wEv2b], [], mapEmpty, 1, 0, 1, 1, false⟩

theorem tick_process_one_witness :
    (∀ c, (wSt2.tick).1 c = (wSt2.process 1).1 c 0) ∧
    (wSt2.tick).2 = (wSt2.process 1).2 := by
  refine tick_process_one wSt2 ?_ ?_ ?_
  · show (1 : ℝ) * 1 = 1
    norm_num
  · show (0 : ℝ) < 1
    norm_num
  · intro e he
    have hcond : ∀ ev : Event48, ev = wEv2a ∨ ev = wEv2b →
        ev.start_time ≤ wSt2.time + wSt2.sampleDuration * 0.5 ∧
        (0 < ev.fade_in → ev.start_time + ev.fade_in ≤ wSt2.time ∨
          wSt2.time + wSt2.sampleDuration * 0.5 <
            ev.start_time + ev.fade_in) ∧
        (0 < ev.fade_out → ev.end_time - ev.fade_out ≤ wSt2.time ∨
          wSt2.time + wSt2.sampleDuration * 0.5 <
            ev.end_time - ev.fade_out) := by
      intro ev hev
      rcases hev with h | h <;> subst h
      · refine ⟨?_, ?_, ?_⟩
        · show (-1 : ℝ) ≤ 0 + 1 * 0.5
          norm_num
        · intro hfi
          exact absurd hfi (show ¬ (0 : ℝ) < 0 by norm_num)
        · intro hfo
          exact absurd hfo (show ¬ (0 : ℝ) < 0 by norm_num)
      · refine ⟨?_, ?_, ?_⟩
        · show (-2 : ℝ) ≤ 0 + 1 * 0.5
          norm_num
        · intro hfi
          exact absurd hfi (show ¬ (0 : ℝ) < 0 by norm_num)
        · intro hfo
          exact absurd hfo (show ¬ (0 : ℝ) < 0 by norm_num)
    rcases he with h | hex
    · exact hcond e (Or.inl (List.mem_singleton.mp h))
    · obtain ⟨e0, he0, hs0, hx⟩ := hex
      have he0b : e0 = wEv2b := List.mem_singleton.mp he0
      subst he0b
      have hxb : e = wEv2b := by
        rcases hx with h1 | h1
        · exact h1
        · rw [h1]
          rfl
      exact hcond e (Or.inr hxb)

/-- The C2 counterexample event: its fade-in ends at time `1/4`,
strictly inside the first half of the sample rendered next. -/
noncomputable def cexEv2 : Event48 :=
  ⟨cexUnit, -1, 10, Fade.Smooth, 5 / 4, 0, 0⟩

/-- The C2 counterexample state: sample rate 1, time 0, one active
event whose fade-in boundary falls at `1/4`. -/
noncomputable def cexSt2 : Sequencer48 :=
  ⟨[cexEv2], mapInsert mapEmpty 0 0, ((-(1 : ℝ) / 2 : ℝ) : WithBot ℝ),
    [], [], mapEmpty, 1, 0, 1, 1, false⟩

theorem cexEv2_fadeout :
    fadeFactorOut cexEv2.fade_ease cexEv2.end_time cexEv2.fade_out 0 = 1 := by
  unfold fadeFactorOut
  rw [if_neg (show ¬ (0 : ℝ) < cexEv2.fade_out by
    rw [show cexEv2.fade_out = (0 : ℝ) from rfl]
    norm_num)]

theorem cexSt2_tick_out : (cexSt2.tick).1 0 = smooth5 (4 / 5) := by
  unfold Sequencer48.tick Sequencer48.readyToActive
  dsimp only
  rw [show cexSt2.replayEvents = false from rfl, if_neg (by simp)]
  rw [rtaLoop_nil _ rfl]
  dsimp only [cexSt2]
  have hcond : ¬ (cexEv2.end_time ≤ (0 : ℝ) + 0.5 * 1) := by
    rw [show cexEv2.end_time = (10 : ℝ) from rfl]
    norm_num
  rw [activeLoop_one _ _ _ _ _ _ _ _ hcond]
  show (0 : ℝ) + (renderTick 1 0 cexEv2).2 0 = smooth5 (4 / 5)
  rw [zero_add]
  unfold renderTick
  show (if (0 : ℕ) < 1 then cexEv2.unit.gen cexEv2.unit.pos 0 else 0) *
    fadeFactorIn cexEv2.fade_ease cexEv2.start_time cexEv2.fade_in 0 *
    fadeFactorOut cexEv2.fade_ease cexEv2.end_time cexEv2.fade_out 0 =
      smooth5 (4 / 5)
  rw [if_pos (by norm_num : (0 : ℕ) < 1)]
  rw [show cexEv2.unit.gen cexEv2.unit.pos 0 = 1 from rfl]
  have hin : fadeFactorIn cexEv2.fade_ease cexEv2.start_time
      cexEv2.fade_in 0 = smooth5 (4 / 5) := by
    unfold fadeFactorIn
    rw [if_pos (show (0 : ℝ) < cexEv2.fade_in by
      rw [show cexEv2.fade_in = (5 : ℝ) / 4 from rfl]
      norm_num)]
    have hd : delerp cexEv2.start_time
        (cexEv2.start_time + cexEv2.fade_in) 0 = 4 / 5 := by
      rw [show cexEv2.start_time = (-1 : ℝ) from rfl,
        show cexEv2.fade_in = (5 : ℝ) / 4 from rfl]
      unfold delerp
      norm_num
    rw [hd, if_pos (by norm_num : (4 : ℝ) / 5 < 1)]
    rfl
  rw [hin, cexEv2_fadeout, one_mul, mul_one]

theorem cexSt2_process_out : (cexSt2.process 1).1 0 0 = 1 := by
  unfold Sequencer48.process Sequencer48.readyToActive
  dsimp only
  rw [show cexSt2.replayEvents = false from rfl, if_neg (by simp)]
  rw [rtaLoop_nil _ rfl]
  dsimp only [cexSt2]
  have hcond : ¬ (cexEv2.end_time ≤ (0 : ℝ) + 0.5 * 1) := by
    rw [show cexEv2.end_time = (10 : ℝ) from rfl]
    norm_num
  rw [activeLoop_one _ _ _ _ _ _ _ _ hcond]
  show (0 : ℝ) + (renderProc 1 0 1 1 (0 + 1 * ((1 : ℕ) : ℝ)) 1
    cexEv2).2 0 0 = 1
  rw [zero_add, show ((0 : ℝ) + 1 * ((1 : ℕ) : ℝ)) = 0 + 1 by norm_num]
  have hsi : procStartIndex 0 1 cexEv2 = 0 := by
    unfold procStartIndex
    rw [if_pos (show cexEv2.start_time ≤ (0 : ℝ) by
      rw [show cexEv2.start_time = (-1 : ℝ) from rfl]
      norm_num)]
  have hei : procEndIndex 0 1 (0 + 1) 1 cexEv2 = 1 := by
    unfold procEndIndex
    rw [if_pos (show (0 : ℝ) + 1 ≤ cexEv2.end_time by
      rw [show cexEv2.end_time = (10 : ℝ) from rfl]
      norm_num)]
  unfold renderProc
  rw [hsi, hei, if_pos (by norm_num : (0 : ℕ) < 1)]
  show (if (0 : ℕ) < 1 ∧ (0 : ℕ) ≤ 0 ∧ (0 : ℕ) < 1 then
    procBuffer 1 0 1 1 (0 + 1) 1 cexEv2 0 (0 - 0) else 0) = 1
  rw [if_pos (show (0 : ℕ) < 1 ∧ (0 : ℕ) ≤ 0 ∧ (0 : ℕ) < 1 by
    norm_num)]
  unfold procBuffer
  rw [hsi, hei]
  rw [fade_out48_at_zero 1 1 0 (by norm_num) (by norm_num)
    cexEv2.fade_ease cexEv2.fade_out cexEv2.end_time _ 0 (by
      intro h
      rw [show cexEv2.fade_out = (0 : ℝ) from rfl] at h
      exact absurd h (by norm_num))]
  have hfin : ∀ output : ℕ → ℕ → ℝ,
      fade_in48 1 0 (0 + 1) 0 1 cexEv2.fade_ease cexEv2.fade_in
        cexEv2.start_time output 0 0 = output 0 0 := by
    intro output
    simp only [fade_in48]
    rw [show cexEv2.fade_in = (5 : ℝ) / 4 from rfl,
      show cexEv2.start_time = (-1 : ℝ) from rfl]
    rw [if_pos (show (0 : ℝ) < 5 / 4 ∧ (0 : ℝ) < -1 + 5 / 4 by
      norm_num)]
    rw [if_neg (show ¬ ((0 : ℝ) + 1 ≤ -1 + 5 / 4) by norm_num)]
    rw [show round48 ((-1 + 5 / 4 - 0) / 1) = 0 from
      round48_of_le_half (by norm_num) (by norm_num)]
    show (if (0 : ℕ) < (0 : ℤ).toNat then _ else output 0 0) =
      output 0 0
    rw [if_neg (by norm_num)]
  rw [hfin]
  rw [show (if (0 : ℕ) < 1 ∧ (0 : ℕ) < 1 - 0 then
      cexEv2.unit.gen (cexEv2.unit.pos + 0) 0 else 0) =
    cexEv2.unit.gen (cexEv2.unit.pos + 0) 0 from
      if_pos (by norm_num)]
  rw [show cexEv2.unit.gen (cexEv2.unit.pos + 0) 0 = 1 from rfl]
  rw [cexEv2_fadeout, one_mul]

/-- C2 as stated fails: from the counterexample state, `tick` scales
the event by its exact fade-in phase, `smooth5 (4/5)`, while `process`
with size 1 rounds the fade-in boundary `1/4` down to sample index 0
and applies no scaling at all, so the output frames differ. -/
theorem tick_process_one_cex :
    ¬ ((∀ c, (cexSt2.tick).1 c = (cexSt2.process 1).1 c 0) ∧
      (cexSt2.tick).2 = (cexSt2.process 1).2) := by
  intro hcl
  have h := hcl.1 0
  rw [cexSt2_tick_out, cexSt2_process_out] at h
  norm_num [smooth5] at h

end Fundsp
